import Mathlib

/-
Shallow embedding of the position-lifecycle engine of `copy_trader.py`
(class LighterTrader) and of the price-suffix normalization step of
`parse_trade_message` in `discord_trader_bot.py`.

Modelling conventions:
* Python floats are modelled as exact rationals (ℚ).
* `self.active_trades` (a Python dict keyed by symbol) is an association
  list with first-occurrence lookup / in-place replace / delete, matching
  dict semantics on stores with unique keys.
* External collaborators (market data, account balance, venue order
  placement outcomes, the TP_FRACTIONS environment value) are explicit
  parameters gathered in `Env`, plus per-call order-success booleans.
* Python `logging` calls of the engine become an explicit `Event` trace,
  so claims about "a close is issued" / "a stop-loss triggers" can be
  stated about the trace.
* Caught exceptions (the per-call try/except blocks in the source) are
  modelled by the value the enclosing function returns on that path;
  the one uncatchable case — CPython's RuntimeError when a dict changes
  size during iteration in `check_positions` — is modelled explicitly by
  the `raised` flag of `SweepOut`.
* Timestamps and venue order references are audit-only in the source
  (never read back by control flow) and are omitted.
-/

/-- Python `int()` applied to a float value: truncation toward zero. -/
def pyInt (q : ℚ) : ℤ := if q < 0 then ⌈q⌉ else ⌊q⌋

/-- Python `str.upper()`; all strings handled by the engine are ASCII.
Written over the character list so that it evaluates inside the kernel. -/
def pyUpper (s : String) : String := String.mk (s.data.map Char.toUpper)

/-- Python truthiness of an optional list value (`if xs:`): `None` and the
empty list are falsy.  Returns the list again when truthy, `none` otherwise,
mirroring idioms like `[float(p) for p in tps] if tps else None`. -/
def truthyList {α : Type} : Option (List α) → Option (List α)
  | some (x :: xs) => some (x :: xs)
  | _ => none

/-- One tracked position: the fields of the `active_trades[symbol]` dict that
the engine reads.  `initial_position_size` is `none` when the dict was created
without that key (the simulation branch of `receive_trade_signal`), matching
`trade.get('initial_position_size', trade['position_size'])`. -/
structure Trade where
  entry_price : ℚ
  entries : Option (List ℚ)
  position_size : ℚ
  initial_position_size : Option ℚ
  leverage : ℚ
  order_type : String
  take_profits : Option (List ℚ)
  tp_filled : Option (List Bool)
  stop_loss : Option ℚ
  deriving DecidableEq

/-- `self.active_trades`: symbol → trade, as an association list. -/
abbrev Store := List (String × Trade)

/-- Dict lookup `active_trades[symbol]` / `symbol in active_trades`. -/
def storeGet : Store → String → Option Trade
  | [], _ => none
  | (k, v) :: rest, s => if k = s then some v else storeGet rest s

/-- Dict assignment `active_trades[symbol] = trade` (replace in place, else
append, preserving insertion order). -/
def storeSet : Store → String → Trade → Store
  | [], s, t => [(s, t)]
  | (k, v) :: rest, s, t => if k = s then (s, t) :: rest else (k, v) :: storeSet rest s t

/-- Dict deletion `del active_trades[symbol]`. -/
def storeDel : Store → String → Store
  | [], _ => []
  | (k, v) :: rest, s => if k = s then rest else (k, v) :: storeDel rest s

/-- External collaborators and configuration, fixed for the duration of one
engine call.  `market sym = none` models `get_market_info` returning `None`;
`some none` models a market-info dict without a `price` key; `some (some p)`
a dict with price `p`. -/
structure Env where
  simulation : Bool
  market : String → Option (Option ℚ)
  balance : ℚ
  max_position_size : ℚ
  leverage : ℚ
  stop_loss_percentage : ℚ
  min_profit_threshold : ℚ
  tp_fractions : Option (List ℚ)

/-- `get_account_balance`: a fixed 100.0 in simulation mode, the venue-reported
balance otherwise. -/
def get_account_balance (env : Env) : ℚ :=
  if env.simulation then 100 else env.balance

/-- `get_position_size`: coin units from balance × percentage × leverage / price.
Division by a zero price yields 0 in ℚ, which coincides with the source's
caught ZeroDivisionError path returning 0.0. -/
def get_position_size (env : Env) (price : ℚ) : ℚ :=
  let account_balance := get_account_balance env
  if account_balance ≤ 0 then 0
  else if env.max_position_size ≤ 0 ∨ 1 < env.max_position_size then 0
  else account_balance * env.max_position_size * env.leverage / price

/-- `_parse_tp_fractions`: per-level close fractions.  The TP_FRACTIONS
environment value is modelled as the list of its numeric tokens after
`float()` (`none` for unset or empty).  Percentages strictly greater than 1
are divided by 100; a count mismatch or a non-positive total falls back to
the equal split; otherwise the weights are normalized to sum to 1. -/
def parse_tp_fractions (raw : Option (List ℚ)) (tp_count : ℕ) : List ℚ :=
  match raw with
  | some parts =>
    let nums := parts.map (fun v => if 1 < v then v / 100 else v)
    if nums.length ≠ tp_count then
      if 0 < tp_count then List.replicate tp_count (1 / (tp_count : ℚ)) else []
    else
      let total := nums.sum
      if total ≤ 0 then
        if 0 < tp_count then List.replicate tp_count (1 / (tp_count : ℚ)) else []
      else nums.map (fun n => n / total)
  | none => if 0 < tp_count then List.replicate tp_count (1 / (tp_count : ℚ)) else []

/-- Observable events, mirroring the engine's log lines: stop-loss trigger,
legacy take-profit trigger, per-level TP trigger ("TPn hit"), TP level marked
filled, and a sell order placement attempt (with its computed size, execution
price, and venue outcome). -/
inductive Event where
  | stopHit (sym : String)
  | legacyTp (sym : String)
  | tpHit (sym : String) (idx : ℕ)
  | tpMarked (sym : String) (idx : ℕ)
  | sellOrder (sym : String) (size price : ℚ) (ok : Bool)
  deriving DecidableEq

/-- Recognizer for sell-order placement events. -/
def isSellEv : Event → Bool
  | .sellOrder _ _ _ _ => true
  | _ => false

/-- The fields of a sell signal dict that `execute_sell` reads. -/
structure SellReq where
  price : ℚ
  order_type : String
  sell_fraction : Option ℚ
  deriving DecidableEq

/-- Return value and effects of `execute_sell`. -/
structure SellResult where
  ok : Bool
  store : Store
  events : List Event
  deriving DecidableEq

/-- Execution-price resolution inside `execute_sell`: market info must exist;
MARKET orders use the reported price and fail on a missing or zero price;
LIMIT orders use the request's price. -/
def resolve_exec_price (env : Env) (sym : String) (req : SellReq) : Option ℚ :=
  match env.market sym with
  | none => none
  | some info =>
    if pyUpper req.order_type = "MARKET" then
      let current_price := info.getD 0
      if current_price = 0 then none else some current_price
    else some req.price

/-- `execute_sell`: close (part of) the position for `sym`.  `sellOk` is the
venue outcome of the (single) order placement in live mode; simulation mode
always succeeds.  The P/L log line divides by the entry price after the order
is placed; with a zero entry price that ZeroDivisionError is caught and the
function returns False without touching the position. -/
def execute_sell (env : Env) (sellOk : Bool) (sym : String) (req : SellReq)
    (store : Store) : SellResult :=
  match storeGet store sym with
  | none => ⟨false, store, []⟩
  | some trade =>
    match resolve_exec_price env sym req with
    | none => ⟨false, store, []⟩
    | some execution_price =>
      let sell_fraction := max 0 (min 1 (req.sell_fraction.getD 1))
      let current_position_size := trade.position_size
      let size_to_close := current_position_size * sell_fraction
      if size_to_close ≤ 0 then ⟨false, store, []⟩
      else if env.simulation = false ∧ sellOk = false then
        ⟨false, store, [.sellOrder sym size_to_close execution_price false]⟩
      else if trade.entry_price = 0 then
        ⟨false, store, [.sellOrder sym size_to_close execution_price true]⟩
      else
        let remaining := current_position_size - size_to_close
        if remaining ≤ 0 then
          ⟨true, storeDel store sym, [.sellOrder sym size_to_close execution_price true]⟩
        else
          ⟨true, storeSet store sym { trade with position_size := remaining },
            [.sellOrder sym size_to_close execution_price true]⟩

/-- The fields of a signal dict produced by the Discord-side parsers that
`receive_trade_signal` / `execute_buy` / `execute_sell` read.  The three
required fields (`action`, `symbol`, `price`) are mandatory; the rest model
optional dict keys. -/
structure Signal where
  action : String
  symbol : String
  price : ℚ
  order_type : Option String
  entries : Option (List ℚ)
  take_profits : Option (List ℚ)
  stop_loss : Option ℚ
  leverage : Option ℚ
  sell_fraction : Option ℚ
  deriving DecidableEq

/-- The laddered-entry loop of `execute_buy`: leg `i` at entry price `e` gets
size `get_position_size(symbol, e) / n`; non-positive sizes are skipped, and
in live mode a leg whose venue call fails (`legOk i = false`) is skipped.
Returns `(total_position_size, avg_price_accumulator)`. -/
def ladder_fills (env : Env) (legOk : ℕ → Bool) (n : ℕ) : List ℚ → ℕ → ℚ × ℚ
  | [], _ => (0, 0)
  | e :: rest, i =>
    let r := ladder_fills env legOk n rest (i + 1)
    let position_size := get_position_size env e / (n : ℚ)
    if position_size ≤ 0 then r
    else if env.simulation = true ∨ legOk i = true then
      (r.1 + position_size, r.2 + e * position_size)
    else r

/-- Fresh `tp_filled` array for a new position: `[False] * len(take_profits)`
when the take-profit list is truthy, else `None`. -/
def freshTpFilled (tps : Option (List ℚ)) : Option (List Bool) :=
  (truthyList tps).map (fun l => List.replicate l.length false)

/-- `execute_buy`: place an entry (laddered limit entries when the signal has a
truthy `entries` list and LIMIT order type, else a single market/limit entry)
and insert the resulting position into the store.  `legOk i` is the venue
outcome of ladder leg `i`; the single-entry branch uses `legOk 0`.  Note the
unconditional `active_trades[symbol] = {...}` of the source: an existing
position for the symbol is overwritten. -/
def execute_buy (env : Env) (legOk : ℕ → Bool) (sig : Signal) (store : Store) :
    Bool × Store :=
  let symbol := sig.symbol
  let order_type := pyUpper (sig.order_type.getD "LIMIT")
  match env.market symbol with
  | none => (false, store)
  | some info =>
    match truthyList sig.entries, decide (order_type = "LIMIT") with
    | some entries, true =>
      let r := ladder_fills env legOk entries.length entries 0
      if r.1 = 0 then (false, store)
      else
        (true, storeSet store symbol
          { entry_price := r.2 / r.1
            entries := some entries
            position_size := r.1
            initial_position_size := some r.1
            leverage := env.leverage
            order_type := order_type
            take_profits := truthyList sig.take_profits
            tp_filled := freshTpFilled sig.take_profits
            stop_loss := sig.stop_loss })
    | _, _ =>
      let execution_price? : Option ℚ :=
        if order_type = "MARKET" then
          let current_price := info.getD 0
          if current_price = 0 then none else some current_price
        else some sig.price
      match execution_price? with
      | none => (false, store)
      | some execution_price =>
        let position_size := get_position_size env execution_price
        if position_size ≤ 0 then (false, store)
        else if env.simulation = false ∧ legOk 0 = false then (false, store)
        else
          (true, storeSet store symbol
            { entry_price := execution_price
              entries := none
              position_size := position_size
              initial_position_size := some position_size
              leverage := env.leverage
              order_type := order_type
              take_profits := truthyList sig.take_profits
              tp_filled := freshTpFilled sig.take_profits
              stop_loss := sig.stop_loss })

/-- The trade dict inserted by the simulation branch of `receive_trade_signal`
for a BUY signal: `position_size` is the literal 0 and the
`initial_position_size` key is absent. -/
def simTrade (env : Env) (sig : Signal) : Trade :=
  { entry_price :=
      match truthyList sig.entries with
      | some (e :: _) => e
      | _ => sig.price
    entries := truthyList sig.entries
    position_size := 0
    initial_position_size := none
    leverage := sig.leverage.getD env.leverage
    order_type := pyUpper (sig.order_type.getD "LIMIT")
    take_profits := truthyList sig.take_profits
    tp_filled := freshTpFilled sig.take_profits
    stop_loss := sig.stop_loss }

/-- `receive_trade_signal`: in simulation mode a BUY is tracked (at size 0)
and every action reports success; otherwise a leverage field in the signal
first overwrites the configured leverage, then BUY/SELL dispatch to
`execute_buy` / `execute_sell` and any other action fails. -/
def receive_trade_signal (env : Env) (legOk : ℕ → Bool) (sellOk : Bool)
    (sig : Signal) (store : Store) : Bool × Store :=
  if env.simulation then
    if sig.action = "BUY" then (true, storeSet store sig.symbol (simTrade env sig))
    else (true, store)
  else
    let env' :=
      match sig.leverage with
      | some l => { env with leverage := l }
      | none => env
    if sig.action = "BUY" then execute_buy env' legOk sig store
    else if sig.action = "SELL" then
      let r := execute_sell env' sellOk sig.symbol
        ⟨sig.price, sig.order_type.getD "LIMIT", sig.sell_fraction⟩ store
      (r.ok, r.store)
    else (false, store)

/-- Mark take-profit level `idx` filled on a trade:
`trade['tp_filled'][idx] = True`. -/
def markTp (t : Trade) (idx : ℕ) : Trade :=
  { t with tp_filled := t.tp_filled.map (fun fl => fl.set idx true) }

/-- The take-profit level loop of `check_positions` (lines 538-558), over the
enumerated levels `(idx, tp)`.  `fractions`, `initial_size` and `current_size`
are the snapshots computed before the loop.  Reading `tp_filled[idx]` or
`fractions[idx]` out of bounds raises inside the per-symbol try/except, which
abandons the rest of this symbol's handling (returning the store as mutated so
far); in-range behaviour: a filled or uncrossed level is skipped; a crossed
unfilled level with a non-positive clamped target size is marked filled and
the loop continues; otherwise a MARKET partial close for
`size_to_close / current_size` of the position is executed, the level is
marked filled if the symbol still exists, and the loop breaks. -/
def tp_loop (env : Env) (sellOk : Bool) (sym : String) (current_price : ℚ)
    (fractions : List ℚ) (initial_size current_size : ℤ) :
    List (ℕ × ℚ) → Store → Store × List Event
  | [], store => (store, [])
  | (idx, tp) :: rest, store =>
    match storeGet store sym with
    | none => (store, [])
    | some trade =>
      match trade.tp_filled with
      | none => (store, [])
      | some fl =>
        if idx < fl.length then
          if fl.getD idx false then
            tp_loop env sellOk sym current_price fractions initial_size current_size rest store
          else if tp ≤ current_price then
            if idx < fractions.length then
              let target_for_this_tp := pyInt ((initial_size : ℚ) * fractions.getD idx 0)
              let size_to_close := max 0 (min current_size target_for_this_tp)
              if size_to_close ≤ 0 ∨ current_size ≤ 0 then
                let r := tp_loop env sellOk sym current_price fractions initial_size
                  current_size rest (storeSet store sym (markTp trade idx))
                (r.1, .tpHit sym idx :: .tpMarked sym idx :: r.2)
              else
                let sell_fraction := (size_to_close : ℚ) / (current_size : ℚ)
                let r := execute_sell env sellOk sym
                  ⟨current_price, "MARKET", some sell_fraction⟩ store
                match storeGet r.store sym with
                | some t' =>
                  (storeSet r.store sym (markTp t' idx),
                    .tpHit sym idx :: r.events ++ [.tpMarked sym idx])
                | none => (r.store, .tpHit sym idx :: r.events)
            else (store, [])
          else
            tp_loop env sellOk sym current_price fractions initial_size current_size rest store
        else (store, [])

/-- The take-profit / legacy-threshold part of one symbol's handling in
`check_positions`: when both `take_profits` and `tp_filled` are truthy, run
the level loop over the enumerated levels with truncated size snapshots;
otherwise apply the legacy minimum-profit rule (whose profit formula divides
by the entry price: a zero entry price raises and is caught, abandoning the
symbol). -/
def tp_phase (env : Env) (sellOk : Bool) (sym : String) (current_price : ℚ)
    (trade : Trade) (store : Store) : Store × List Event :=
  match truthyList trade.take_profits, truthyList trade.tp_filled with
  | some tp_levels, some _ =>
    let fractions := parse_tp_fractions env.tp_fractions tp_levels.length
    let initial_size := pyInt (trade.initial_position_size.getD trade.position_size)
    let current_size := pyInt trade.position_size
    tp_loop env sellOk sym current_price fractions initial_size current_size
      tp_levels.enum store
  | _, _ =>
    if trade.entry_price = 0 then (store, [])
    else
      let profit_percentage :=
        (current_price - trade.entry_price) / trade.entry_price * trade.leverage
      if env.min_profit_threshold ≤ profit_percentage then
        let r := execute_sell env sellOk sym ⟨current_price, "MARKET", none⟩ store
        (r.store, .legacyTp sym :: r.events)
      else (store, [])

/-- Handling of one symbol inside the `check_positions` sweep: skip silently
when market data or its price is unavailable; evaluate the stop-loss first
(absolute level when set, else the percentage rule, whose formula divides by
the entry price — a zero entry price raises and is caught, skipping the
symbol); on a stop-loss trigger execute a full MARKET close and skip
take-profit evaluation; otherwise run the take-profit phase. -/
def handle_symbol (env : Env) (sellOk : Bool) (sym : String) (store : Store) :
    Store × List Event :=
  match storeGet store sym with
  | none => (store, [])
  | some trade =>
    match env.market sym with
    | none => (store, [])
    | some none => (store, [])
    | some (some current_price) =>
      match trade.stop_loss with
      | some sl =>
        if current_price ≤ sl then
          let r := execute_sell env sellOk sym ⟨current_price, "MARKET", none⟩ store
          (r.store, .stopHit sym :: r.events)
        else tp_phase env sellOk sym current_price trade store
      | none =>
        if trade.entry_price = 0 then (store, [])
        else
          let profit_percentage :=
            (current_price - trade.entry_price) / trade.entry_price * trade.leverage
          if profit_percentage ≤ -env.stop_loss_percentage then
            let r := execute_sell env sellOk sym ⟨current_price, "MARKET", none⟩ store
            (r.store, .stopHit sym :: r.events)
          else tp_phase env sellOk sym current_price trade store

/-- Outcome of one `check_positions` sweep.  `raised = true` models the
RuntimeError CPython raises from the `for ... in self.active_trades.items()`
statement itself once the dict's size has changed (a full close deleted an
entry); that raise happens outside the per-symbol try/except and aborts the
sweep, leaving `store` and `events` as accumulated so far. -/
structure SweepOut where
  raised : Bool
  store : Store
  events : List Event
  deriving DecidableEq

/-- The sweep loop: before yielding each next symbol (and before the final
StopIteration) the dict iterator compares the dict's current size with the
size at iterator creation (`n`) and raises on mismatch. -/
def sweep_go (env : Env) (sellOk : String → Bool) (n : ℕ) :
    List String → Store → List Event → SweepOut
  | [], store, evs =>
    if store.length = n then ⟨false, store, evs⟩ else ⟨true, store, evs⟩
  | sym :: rest, store, evs =>
    if store.length = n then
      let r := handle_symbol env (sellOk sym) sym store
      sweep_go env sellOk n rest r.1 (evs ++ r.2)
    else ⟨true, store, evs⟩

/-- `check_positions`: one monitor sweep over all tracked symbols.
`sellOk sym` is the venue outcome of the (at most one) close order placed for
`sym` during this sweep. -/
def check_positions (env : Env) (sellOk : String → Bool) (store : Store) : SweepOut :=
  sweep_go env sellOk store.length (store.map Prod.fst) store []

/-- One engine operation, with the external outcomes it consumes.  The
configuration mutation performed by `receive_trade_signal` (overwriting the
configured leverage from the signal) is modelled inside that operation; since
every operation carries its own `Env`, sequences with mutated configuration
are instances of sequences of these operations. -/
inductive Op where
  | signal (env : Env) (legOk : ℕ → Bool) (sellOk : Bool) (sig : Signal)
  | buy (env : Env) (legOk : ℕ → Bool) (sig : Signal)
  | sell (env : Env) (sellOk : Bool) (sym : String) (req : SellReq)
  | monitor (env : Env) (sellOk : String → Bool)

/-- Effect of one operation on the store. -/
def applyOp : Op → Store → Store
  | .signal env legOk sellOk sig, s => (receive_trade_signal env legOk sellOk sig s).2
  | .buy env legOk sig, s => (execute_buy env legOk sig s).2
  | .sell env sellOk sym req, s => (execute_sell env sellOk sym req s).store
  | .monitor env sellOk, s => (check_positions env sellOk s).store

/-- Whether an operation is a simulation-mode BUY signal (the only operation
that inserts a zero-size position). -/
def Op.isSimBuy : Op → Bool
  | .signal env _ _ sig => env.simulation && decide (sig.action = "BUY")
  | _ => false

/-- `initialSize` as the monitor reads it:
`trade.get('initial_position_size', trade['position_size'])`. -/
def initialSizeD (t : Trade) : ℚ := t.initial_position_size.getD t.position_size

/-- Size invariant: every stored position satisfies
`0 ≤ currentSize ≤ initialSize`. -/
def SizeInv (s : Store) : Prop :=
  ∀ p ∈ s, 0 ≤ p.2.position_size ∧ p.2.position_size ≤ initialSizeD p.2

/-- No stored position has size zero (or below). -/
def NoZeroSize (s : Store) : Prop := ∀ p ∈ s, 0 < p.2.position_size

/-- Python `haystack.find(needle) != -1`: substring containment, over the
character list of the (already uppercased) message. -/
def containsSub (needle : List Char) : List Char → Bool
  | [] => needle.isEmpty
  | c :: t => needle.isPrefixOf (c :: t) || containsSub needle t

/-- Lines 356-361 of `parse_trade_message`: the K/M price multiplier is chosen
by searching the whole uppercased message for the matched digits immediately
followed by `K` (then `M`), anywhere in the text. -/
def price_multiplier (message tok : List Char) : ℚ :=
  if containsSub (tok ++ ['K']) message then 1000
  else if containsSub (tok ++ ['M']) message then 1000000
  else 1

/-- The price normalization applied to the matched numeric value:
`price = str(float(price) * 1000)` / `* 1000000` / unchanged. -/
def normalize_price (message tok : List Char) (price : ℚ) : ℚ :=
  price * price_multiplier message tok

/-- Properties the cascade's matched numeric group (`\d+(?:\.\d+)?` without a
fractional part) has at its match position `i` in the uppercased message:
non-empty, all digits, occurring at `i`, and maximal to the right (a greedy
match cannot stop immediately before another digit, nor before a decimal
point that is followed by a digit). -/
def numTokenAt (message tok : List Char) (i : ℕ) : Bool :=
  (!tok.isEmpty) && tok.all Char.isDigit && ((message.drop i).take tok.length == tok) &&
    (match message.drop (i + tok.length) with
     | [] => true
     | c :: rest =>
       if c.isDigit then false
       else if c = '.' then
         match rest with
         | [] => true
         | d :: _ => !d.isDigit
       else true)

/-- Derived characterization of the take-profit level loop: the first level in
order whose flag is unfilled, whose target is crossed, and whose truncated,
clamped target size is positive (with `current_size` positive), together with
that size.  Reads the fill flags as they stood at loop entry. -/
def firstClose (current_price : ℚ) (fractions : List ℚ)
    (initial_size current_size : ℤ) (fl : List Bool) :
    List (ℕ × ℚ) → Option (ℕ × ℤ)
  | [] => none
  | (idx, tp) :: rest =>
    if fl.getD idx false then
      firstClose current_price fractions initial_size current_size fl rest
    else if tp ≤ current_price then
      let sz := max 0 (min current_size (pyInt ((initial_size : ℚ) * fractions.getD idx 0)))
      if sz ≤ 0 ∨ current_size ≤ 0 then
        firstClose current_price fractions initial_size current_size fl rest
      else some (idx, sz)
    else firstClose current_price fractions initial_size current_size fl rest

/-- The fill flags after a full pass of the level loop when every crossed
unfilled level computes a non-positive close size (so the loop only marks):
fold of `fl[idx] = True` over the crossed unfilled levels. -/
def markSweep (current_price : ℚ) : List Bool → List (ℕ × ℚ) → List Bool
  | fl, [] => fl
  | fl, (idx, tp) :: rest =>
    markSweep current_price
      (if fl.getD idx false then fl
       else if tp ≤ current_price then fl.set idx true else fl) rest

/-- Fill flag `idx` of a trade as the loop reads it (`false` when the
`tp_filled` key is `None` or the index is out of range). -/
def tpFilledAt (t : Trade) (idx : ℕ) : Bool :=
  (t.tp_filled.getD []).getD idx false


/-- Simulation-mode environment with every symbol quoting price `p`. -/
def simEnv (p : ℚ) : Env :=
  { simulation := true, market := fun _ => some (some p), balance := 0,
    max_position_size := 1 / 10, leverage := 2, stop_loss_percentage := 1 / 20,
    min_profit_threshold := 1 / 50, tp_fractions := none }

/-- Live-mode environment: $100 balance, 10% position sizing, 2x leverage,
every symbol quoting price `p`. -/
def liveEnv (p : ℚ) : Env :=
  { simulation := false, market := fun _ => some (some p), balance := 100,
    max_position_size := 1 / 10, leverage := 2, stop_loss_percentage := 1 / 20,
    min_profit_threshold := 1 / 50, tp_fractions := none }

/-- A market BUY signal for BTC as the single-line parser emits it. -/
def buySignalBTC : Signal :=
  { action := "BUY", symbol := "BTC", price := 50000, order_type := some "MARKET",
    entries := none, take_profits := none, stop_loss := none, leverage := none,
    sell_fraction := none }

/-- The same BUY signal with a LIMIT order type. -/
def limitBuyBTC : Signal :=
  { buySignalBTC with order_type := some "LIMIT" }

/-- The trade dict the simulation branch of `receive_trade_signal` inserts for
`buySignalBTC` (size 0, no `initial_position_size` key). -/
def zeroSimTrade : Trade :=
  { entry_price := 50000, entries := none, position_size := 0,
    initial_position_size := none, leverage := 2, order_type := "MARKET",
    take_profits := none, tp_filled := none, stop_loss := none }

/-- A 10-unit position with a three-level take-profit ladder, none filled. -/
def ladderTrade : Trade :=
  { entry_price := 50000, entries := none, position_size := 10,
    initial_position_size := some 10, leverage := 2, order_type := "LIMIT",
    take_profits := some [52000, 54000, 56000],
    tp_filled := some [false, false, false], stop_loss := some 48000 }

/-- A 1-unit position with an absolute stop loss at 45000. -/
def stopTrade : Trade :=
  { entry_price := 50000, entries := none, position_size := 1,
    initial_position_size := some 1, leverage := 2, order_type := "LIMIT",
    take_profits := none, tp_filled := none, stop_loss := some 45000 }

/-- A pre-existing tracked position (entry 40000, 1 unit). -/
def oldTrade : Trade :=
  { entry_price := 40000, entries := none, position_size := 1,
    initial_position_size := some 1, leverage := 2, order_type := "LIMIT",
    take_profits := none, tp_filled := none, stop_loss := none }

/-- A sub-unit position (0.002 coins) with a take-profit ladder. -/
def subUnitTrade : Trade :=
  { entry_price := 50000, entries := none, position_size := 1 / 500,
    initial_position_size := some (1 / 500), leverage := 2, order_type := "LIMIT",
    take_profits := some [52000, 54000, 56000],
    tp_filled := some [false, false, false], stop_loss := none }

/-- An uppercased message whose cascade match (pattern 7) captures the numeric
token 500 at position 11, followed by a space; the text 1500K elsewhere
contains the substring 500K. -/
def kmMessage : List Char := ("BUY BTC AT 500 TARGET 1500K").toList

/-- The numeric token the cascade matches in `kmMessage`. -/
def kmTok : List Char := ("500").toList

theorem storeGet_storeSet_self (s : Store) (k : String) (v : Trade) :
    storeGet (storeSet s k v) k = some v := by
  induction s with
  | nil => simp [storeSet, storeGet]
  | cons p rest ih =>
    obtain ⟨a, b⟩ := p
    by_cases ha : a = k
    · subst ha
      simp [storeSet, storeGet]
    · simp [storeSet, storeGet, ha, ih]

theorem storeGet_storeSet_ne (s : Store) (k k' : String) (v : Trade) (h : k' ≠ k) :
    storeGet (storeSet s k v) k' = storeGet s k' := by
  have h' : k ≠ k' := Ne.symm h
  induction s with
  | nil => simp [storeSet, storeGet, h']
  | cons p rest ih =>
    obtain ⟨a, b⟩ := p
    by_cases ha : a = k
    · subst ha
      simp [storeSet, storeGet, h']
    · simp [storeSet, storeGet, ha, ih]

theorem mem_storeSet (s : Store) (k : String) (v : Trade) (p : String × Trade)
    (h : p ∈ storeSet s k v) : p = (k, v) ∨ p ∈ s := by
  induction s with
  | nil =>
    simp only [storeSet, List.mem_singleton] at h
    exact Or.inl h
  | cons q rest ih =>
    obtain ⟨a, b⟩ := q
    by_cases ha : a = k
    · subst ha
      have hs : storeSet ((a, b) :: rest) a v = (a, v) :: rest := by simp [storeSet]
      rw [hs] at h
      rcases List.mem_cons.mp h with h1 | h1
      · exact Or.inl h1
      · exact Or.inr (List.mem_cons_of_mem _ h1)
    · simp only [storeSet, if_neg ha, List.mem_cons] at h
      rcases h with h1 | h1
      · exact Or.inr (List.mem_cons.mpr (Or.inl h1))
      · rcases ih h1 with h2 | h2
        · exact Or.inl h2
        · exact Or.inr (List.mem_cons_of_mem _ h2)

theorem mem_storeDel (s : Store) (k : String) (p : String × Trade)
    (h : p ∈ storeDel s k) : p ∈ s := by
  induction s with
  | nil => simp [storeDel] at h
  | cons q rest ih =>
    obtain ⟨a, b⟩ := q
    by_cases ha : a = k
    · simp only [storeDel, if_pos ha] at h
      exact List.mem_cons_of_mem _ h
    · simp only [storeDel, if_neg ha, List.mem_cons] at h
      rcases h with h1 | h1
      · exact List.mem_cons.mpr (Or.inl h1)
      · exact List.mem_cons_of_mem _ (ih h1)

theorem storeGet_mem (s : Store) (k : String) (t : Trade)
    (h : storeGet s k = some t) : (k, t) ∈ s := by
  induction s with
  | nil => simp [storeGet] at h
  | cons q rest ih =>
    obtain ⟨a, b⟩ := q
    by_cases ha : a = k
    · subst ha
      rw [show storeGet ((a, b) :: rest) a = some b from by simp [storeGet]] at h
      injection h with h
      subst h
      exact List.mem_cons_self _ _
    · simp only [storeGet, if_neg ha] at h
      exact List.mem_cons_of_mem _ (ih h)

theorem storeGet_storeDel_ne (s : Store) (k k' : String) (h : k' ≠ k) :
    storeGet (storeDel s k) k' = storeGet s k' := by
  have h' : k ≠ k' := Ne.symm h
  induction s with
  | nil => simp [storeDel]
  | cons q rest ih =>
    obtain ⟨a, b⟩ := q
    by_cases ha : a = k
    · subst ha
      simp [storeDel, storeGet, h']
    · simp [storeDel, storeGet, ha, ih]

theorem storeGet_eq_none (s : Store) (k : String) (h : k ∉ s.map Prod.fst) :
    storeGet s k = none := by
  induction s with
  | nil => simp [storeGet]
  | cons q rest ih =>
    obtain ⟨a, b⟩ := q
    simp only [List.map_cons, List.mem_cons] at h
    push_neg at h
    simp [storeGet, Ne.symm h.1, ih h.2]

theorem storeGet_storeDel_self (s : Store) (k : String)
    (hnd : (s.map Prod.fst).Nodup) : storeGet (storeDel s k) k = none := by
  induction s with
  | nil => simp [storeDel, storeGet]
  | cons q rest ih =>
    obtain ⟨a, b⟩ := q
    simp only [List.map_cons, List.nodup_cons] at hnd
    by_cases ha : a = k
    · subst ha
      simp only [storeDel, if_pos rfl]
      exact storeGet_eq_none rest a hnd.1
    · simp only [storeDel, if_neg ha, storeGet, if_neg ha]
      exact ih hnd.2

theorem nodup_storeSet (s : Store) (k : String) (v : Trade)
    (hnd : (s.map Prod.fst).Nodup) : ((storeSet s k v).map Prod.fst).Nodup := by
  induction s with
  | nil => simp [storeSet]
  | cons q rest ih =>
    obtain ⟨a, b⟩ := q
    simp only [List.map_cons, List.nodup_cons] at hnd
    by_cases ha : a = k
    · subst ha
      rw [show storeSet ((a, b) :: rest) a v = (a, v) :: rest from by simp [storeSet]]
      simp only [List.map_cons, List.nodup_cons]
      exact hnd
    · simp only [storeSet, if_neg ha, List.map_cons, List.nodup_cons]
      refine ⟨?_, ih hnd.2⟩
      intro hm
      rcases List.mem_map.mp hm with ⟨p, hp, hpa⟩
      rcases mem_storeSet rest k v p hp with h1 | h1
      · rw [h1] at hpa
        exact ha hpa.symm
      · exact hnd.1 (List.mem_map.mpr ⟨p, h1, hpa⟩)

theorem nodup_storeDel (s : Store) (k : String)
    (hnd : (s.map Prod.fst).Nodup) : ((storeDel s k).map Prod.fst).Nodup := by
  induction s with
  | nil => simp [storeDel]
  | cons q rest ih =>
    obtain ⟨a, b⟩ := q
    simp only [List.map_cons, List.nodup_cons] at hnd
    by_cases ha : a = k
    · simp only [storeDel, if_pos ha]
      exact hnd.2
    · simp only [storeDel, if_neg ha, List.map_cons, List.nodup_cons]
      refine ⟨?_, ih hnd.2⟩
      intro hm
      rcases List.mem_map.mp hm with ⟨p, hp, hpa⟩
      exact hnd.1 (List.mem_map.mpr ⟨p, mem_storeDel rest k p hp, hpa⟩)

theorem SizeInv_storeDel (s : Store) (k : String) (h : SizeInv s) :
    SizeInv (storeDel s k) :=
  fun p hp => h p (mem_storeDel s k p hp)

theorem SizeInv_storeSet (s : Store) (k : String) (v : Trade) (h : SizeInv s)
    (hv : 0 ≤ v.position_size ∧ v.position_size ≤ initialSizeD v) :
    SizeInv (storeSet s k v) := by
  intro p hp
  rcases mem_storeSet s k v p hp with h1 | h1
  · rw [h1]
    exact hv
  · exact h p h1

theorem NoZeroSize_storeDel (s : Store) (k : String) (h : NoZeroSize s) :
    NoZeroSize (storeDel s k) :=
  fun p hp => h p (mem_storeDel s k p hp)

theorem NoZeroSize_storeSet (s : Store) (k : String) (v : Trade) (h : NoZeroSize s)
    (hv : 0 < v.position_size) : NoZeroSize (storeSet s k v) := by
  intro p hp
  rcases mem_storeSet s k v p hp with h1 | h1
  · rw [h1]
    exact hv
  · exact h p h1

theorem markTp_position_size (t : Trade) (idx : ℕ) :
    (markTp t idx).position_size = t.position_size := rfl

theorem markTp_initial (t : Trade) (idx : ℕ) :
    (markTp t idx).initial_position_size = t.initial_position_size := rfl

theorem initialSizeD_markTp (t : Trade) (idx : ℕ) :
    initialSizeD (markTp t idx) = initialSizeD t := rfl

theorem execute_sell_SizeInv (env : Env) (sellOk : Bool) (sym : String)
    (req : SellReq) (store : Store) (h : SizeInv store) :
    SizeInv (execute_sell env sellOk sym req store).store := by
  unfold execute_sell
  cases hg : storeGet store sym with
  | none => exact h
  | some trade =>
    cases hp : resolve_exec_price env sym req with
    | none => exact h
    | some px =>
      have hmem := h _ (storeGet_mem store sym trade hg)
      dsimp only
      split_ifs with h1 h2 h3 h4
      · exact h
      · exact h
      · exact h
      · exact SizeInv_storeDel _ _ h
      · apply SizeInv_storeSet _ _ _ h
        refine ⟨le_of_lt (lt_of_not_le (fun hc => h4 hc)), ?_⟩
        have hf0 : (0 : ℚ) ≤ max 0 (min 1 (req.sell_fraction.getD 1)) := le_max_left _ _
        have hsz : 0 ≤ trade.position_size * max 0 (min 1 (req.sell_fraction.getD 1)) :=
          mul_nonneg hmem.1 hf0
        show trade.position_size - _ ≤ initialSizeD _
        unfold initialSizeD at hmem ⊢
        cases hi : trade.initial_position_size with
        | none => simp
        | some i =>
          simp only [hi, Option.getD_some] at hmem ⊢
          linarith [hmem.2]

theorem execute_sell_NoZero (env : Env) (sellOk : Bool) (sym : String)
    (req : SellReq) (store : Store) (h : NoZeroSize store) :
    NoZeroSize (execute_sell env sellOk sym req store).store := by
  unfold execute_sell
  cases hg : storeGet store sym with
  | none => exact h
  | some trade =>
    cases hp : resolve_exec_price env sym req with
    | none => exact h
    | some px =>
      dsimp only
      split_ifs with h1 h2 h3 h4
      · exact h
      · exact h
      · exact h
      · exact NoZeroSize_storeDel _ _ h
      · exact NoZeroSize_storeSet _ _ _ h (lt_of_not_le (fun hc => h4 hc))

theorem execute_sell_events_sell (env : Env) (sellOk : Bool) (sym : String)
    (req : SellReq) (store : Store) :
    ∀ e ∈ (execute_sell env sellOk sym req store).events, isSellEv e = true := by
  unfold execute_sell
  cases hg : storeGet store sym with
  | none => simp
  | some trade =>
    cases hp : resolve_exec_price env sym req with
    | none => simp
    | some px =>
      dsimp only
      split_ifs <;> simp [isSellEv]

theorem execute_sell_nodup (env : Env) (sellOk : Bool) (sym : String)
    (req : SellReq) (store : Store) (hnd : (store.map Prod.fst).Nodup) :
    (((execute_sell env sellOk sym req store).store).map Prod.fst).Nodup := by
  unfold execute_sell
  cases hg : storeGet store sym with
  | none => exact hnd
  | some trade =>
    cases hp : resolve_exec_price env sym req with
    | none => exact hnd
    | some px =>
      dsimp only
      split_ifs
      · exact hnd
      · exact hnd
      · exact hnd
      · exact nodup_storeDel _ _ hnd
      · exact nodup_storeSet _ _ _ hnd

theorem execute_sell_tp_flags (env : Env) (sellOk : Bool) (sym : String)
    (req : SellReq) (store : Store) (hnd : (store.map Prod.fst).Nodup)
    (s' : String) (t' : Trade)
    (h : storeGet (execute_sell env sellOk sym req store).store s' = some t') :
    ∃ t, storeGet store s' = some t ∧ t'.tp_filled = t.tp_filled ∧
      t'.take_profits = t.take_profits := by
  revert h
  unfold execute_sell
  cases hg : storeGet store sym with
  | none => exact fun h => ⟨t', h, rfl, rfl⟩
  | some trade =>
    cases hp : resolve_exec_price env sym req with
    | none => exact fun h => ⟨t', h, rfl, rfl⟩
    | some px =>
      dsimp only
      split_ifs
      · exact fun h => ⟨t', h, rfl, rfl⟩
      · exact fun h => ⟨t', h, rfl, rfl⟩
      · exact fun h => ⟨t', h, rfl, rfl⟩
      · intro h
        by_cases hs : s' = sym
        · subst hs
          rw [storeGet_storeDel_self store s' hnd] at h
          exact absurd h (by simp)
        · rw [storeGet_storeDel_ne store sym s' hs] at h
          exact ⟨t', h, rfl, rfl⟩
      · intro h
        by_cases hs : s' = sym
        · subst hs
          rw [storeGet_storeSet_self] at h
          injection h with h
          exact ⟨trade, hg, by rw [← h], by rw [← h]⟩
        · rw [storeGet_storeSet_ne store sym s' _ hs] at h
          exact ⟨t', h, rfl, rfl⟩

theorem getD_set_monotone (fl : List Bool) (idx i : ℕ) (h : fl.getD i false = true) :
    (fl.set idx true).getD i false = true := by
  induction fl generalizing idx i with
  | nil => simp [List.getD] at h
  | cons b rest ih =>
    cases idx with
    | zero =>
      cases i with
      | zero => simp
      | succ j => simpa using h
    | succ k =>
      cases i with
      | zero => simpa using h
      | succ j =>
        simp only [List.set, List.getD_cons_succ] at h ⊢
        exact ih k j h

theorem getD_set_self (fl : List Bool) (idx : ℕ) (h : idx < fl.length) :
    (fl.set idx true).getD idx false = true := by
  induction fl generalizing idx with
  | nil => simp at h
  | cons b rest ih =>
    cases idx with
    | zero => simp
    | succ k => simpa using ih k (by simpa using h)

theorem getD_set_ne (fl : List Bool) (v : Bool) (idx i : ℕ) (h : i ≠ idx) (d : Bool) :
    (fl.set idx v).getD i d = fl.getD i d := by
  induction fl generalizing idx i with
  | nil => simp [List.set]
  | cons b rest ih =>
    cases idx with
    | zero =>
      cases i with
      | zero => exact absurd rfl h
      | succ j => simp
    | succ k =>
      cases i with
      | zero => simp
      | succ j =>
        simp only [List.set, List.getD_cons_succ]
        exact ih k j (fun hh => h (by rw [hh])) 

theorem tpFilledAt_markTp (t : Trade) (idx i : ℕ) (h : tpFilledAt t i = true) :
    tpFilledAt (markTp t idx) i = true := by
  unfold tpFilledAt at h ⊢
  unfold markTp
  cases hf : t.tp_filled with
  | none =>
    rw [hf] at h
    simp [List.getD] at h
  | some fl =>
    rw [hf] at h
    simp only [Option.map_some', Option.getD_some] at h ⊢
    exact getD_set_monotone fl idx i h


theorem tpFilledAt_congr {t t' : Trade} (h : t'.tp_filled = t.tp_filled) (i : ℕ) :
    tpFilledAt t' i = tpFilledAt t i := by
  unfold tpFilledAt
  rw [h]

theorem tp_loop_SizeInv (env : Env) (sellOk : Bool) (sym : String) (cp : ℚ)
    (fr : List ℚ) (ini cur : ℤ) :
    ∀ (levels : List (ℕ × ℚ)) (store : Store), SizeInv store →
      SizeInv (tp_loop env sellOk sym cp fr ini cur levels store).1 := by
  intro levels
  induction levels with
  | nil => exact fun store h => h
  | cons l rest ih =>
    obtain ⟨idx, tp⟩ := l
    intro store h
    rw [tp_loop]
    cases hg : storeGet store sym with
    | none => exact h
    | some trade =>
      dsimp only
      cases hf : trade.tp_filled with
      | none => exact h
      | some fl =>
        have hmem := h _ (storeGet_mem store sym trade hg)
        dsimp only
        split_ifs with h1 h2 h3 h4 h5
        · exact ih store h
        · apply ih
          apply SizeInv_storeSet _ _ _ h
          rw [markTp_position_size, initialSizeD_markTp]
          exact hmem
        · split
          next t' hg2 =>
            apply SizeInv_storeSet _ _ _ (execute_sell_SizeInv env sellOk sym _ store h)
            rw [markTp_position_size, initialSizeD_markTp]
            exact (execute_sell_SizeInv env sellOk sym _ store h) _ (storeGet_mem _ sym t' hg2)
          next hg2 => exact execute_sell_SizeInv env sellOk sym _ store h
        · exact h
        · exact ih store h
        · exact h

theorem tp_loop_NoZero (env : Env) (sellOk : Bool) (sym : String) (cp : ℚ)
    (fr : List ℚ) (ini cur : ℤ) :
    ∀ (levels : List (ℕ × ℚ)) (store : Store), NoZeroSize store →
      NoZeroSize (tp_loop env sellOk sym cp fr ini cur levels store).1 := by
  intro levels
  induction levels with
  | nil => exact fun store h => h
  | cons l rest ih =>
    obtain ⟨idx, tp⟩ := l
    intro store h
    rw [tp_loop]
    cases hg : storeGet store sym with
    | none => exact h
    | some trade =>
      dsimp only
      cases hf : trade.tp_filled with
      | none => exact h
      | some fl =>
        have hmem := h _ (storeGet_mem store sym trade hg)
        dsimp only
        split_ifs with h1 h2 h3 h4 h5
        · exact ih store h
        · apply ih
          apply NoZeroSize_storeSet _ _ _ h
          rw [markTp_position_size]
          exact hmem
        · split
          next t' hg2 =>
            apply NoZeroSize_storeSet _ _ _ (execute_sell_NoZero env sellOk sym _ store h)
            rw [markTp_position_size]
            exact (execute_sell_NoZero env sellOk sym _ store h) _ (storeGet_mem _ sym t' hg2)
          next hg2 => exact execute_sell_NoZero env sellOk sym _ store h
        · exact h
        · exact ih store h
        · exact h

theorem tp_loop_nodup (env : Env) (sellOk : Bool) (sym : String) (cp : ℚ)
    (fr : List ℚ) (ini cur : ℤ) :
    ∀ (levels : List (ℕ × ℚ)) (store : Store), (store.map Prod.fst).Nodup →
      (((tp_loop env sellOk sym cp fr ini cur levels store).1).map Prod.fst).Nodup := by
  intro levels
  induction levels with
  | nil => exact fun store h => h
  | cons l rest ih =>
    obtain ⟨idx, tp⟩ := l
    intro store h
    rw [tp_loop]
    cases hg : storeGet store sym with
    | none => exact h
    | some trade =>
      dsimp only
      cases hf : trade.tp_filled with
      | none => exact h
      | some fl =>
        dsimp only
        split_ifs with h1 h2 h3 h4 h5
        · exact ih store h
        · exact ih _ (nodup_storeSet _ _ _ h)
        · split
          next t' hg2 => exact nodup_storeSet _ _ _ (execute_sell_nodup env sellOk sym _ store h)
          next hg2 => exact execute_sell_nodup env sellOk sym _ store h
        · exact h
        · exact ih store h
        · exact h

theorem tp_loop_flags (env : Env) (sellOk : Bool) (sym : String) (cp : ℚ)
    (fr : List ℚ) (ini cur : ℤ) :
    ∀ (levels : List (ℕ × ℚ)) (store : Store), (store.map Prod.fst).Nodup →
      ∀ s' t', storeGet (tp_loop env sellOk sym cp fr ini cur levels store).1 s' = some t' →
        ∃ t, storeGet store s' = some t ∧
          ∀ i, tpFilledAt t i = true → tpFilledAt t' i = true := by
  intro levels
  induction levels with
  | nil => exact fun store _ s' t' hh => ⟨t', hh, fun i hi => hi⟩
  | cons l rest ih =>
    obtain ⟨idx, tp⟩ := l
    intro store hnd s' t' hlook
    rw [tp_loop] at hlook
    cases hg : storeGet store sym with
    | none =>
      rw [hg] at hlook
      exact ⟨t', hlook, fun i hi => hi⟩
    | some trade =>
      rw [hg] at hlook
      dsimp only at hlook
      cases hf : trade.tp_filled with
      | none =>
        rw [hf] at hlook
        exact ⟨t', hlook, fun i hi => hi⟩
      | some fl =>
        rw [hf] at hlook
        dsimp only at hlook
        split_ifs at hlook with h1 h2 h3 h4 h5
        · exact ih store hnd s' t' hlook
        · obtain ⟨t1, hget1, hmono1⟩ :=
            ih _ (nodup_storeSet _ _ _ hnd) s' t' hlook
          by_cases hs : s' = sym
          · subst hs
            rw [storeGet_storeSet_self] at hget1
            injection hget1 with hget1
            refine ⟨trade, hg, fun i hi => ?_⟩
            apply hmono1
            rw [← hget1]
            exact tpFilledAt_markTp trade idx i hi
          · rw [storeGet_storeSet_ne _ _ _ _ hs] at hget1
            exact ⟨t1, hget1, hmono1⟩
        · revert hlook
          split
          next t'' hg2 =>
            intro hlook
            obtain ⟨t, hget, hfl, _⟩ :=
              execute_sell_tp_flags env sellOk sym _ store hnd sym t'' hg2
            by_cases hs : s' = sym
            · subst hs
              rw [storeGet_storeSet_self] at hlook
              injection hlook with hlook
              refine ⟨t, hget, fun i hi => ?_⟩
              rw [← hlook]
              apply tpFilledAt_markTp
              rw [tpFilledAt_congr hfl]
              exact hi
            · rw [storeGet_storeSet_ne _ _ _ _ hs] at hlook
              obtain ⟨t, hget, hfl', _⟩ :=
                execute_sell_tp_flags env sellOk sym _ store hnd s' t' hlook
              exact ⟨t, hget, fun i hi => by rw [tpFilledAt_congr hfl']; exact hi⟩
          next hg2 =>
            intro hlook
            obtain ⟨t, hget, hfl', _⟩ :=
              execute_sell_tp_flags env sellOk sym _ store hnd s' t' hlook
            exact ⟨t, hget, fun i hi => by rw [tpFilledAt_congr hfl']; exact hi⟩
        · exact ⟨t', hlook, fun i hi => hi⟩
        · exact ih store hnd s' t' hlook
        · exact ⟨t', hlook, fun i hi => hi⟩


theorem tp_phase_SizeInv (env : Env) (sellOk : Bool) (sym : String) (cp : ℚ)
    (trade : Trade) (store : Store) (h : SizeInv store) :
    SizeInv (tp_phase env sellOk sym cp trade store).1 := by
  unfold tp_phase
  split
  · exact tp_loop_SizeInv _ _ _ _ _ _ _ _ _ h
  · split_ifs
    · exact h
    · dsimp only
      split_ifs
      · exact execute_sell_SizeInv _ _ _ _ _ h
      · exact h

theorem tp_phase_NoZero (env : Env) (sellOk : Bool) (sym : String) (cp : ℚ)
    (trade : Trade) (store : Store) (h : NoZeroSize store) :
    NoZeroSize (tp_phase env sellOk sym cp trade store).1 := by
  unfold tp_phase
  split
  · exact tp_loop_NoZero _ _ _ _ _ _ _ _ _ h
  · split_ifs
    · exact h
    · dsimp only
      split_ifs
      · exact execute_sell_NoZero _ _ _ _ _ h
      · exact h

theorem tp_phase_nodup (env : Env) (sellOk : Bool) (sym : String) (cp : ℚ)
    (trade : Trade) (store : Store) (h : (store.map Prod.fst).Nodup) :
    (((tp_phase env sellOk sym cp trade store).1).map Prod.fst).Nodup := by
  unfold tp_phase
  split
  · exact tp_loop_nodup _ _ _ _ _ _ _ _ _ h
  · split_ifs
    · exact h
    · dsimp only
      split_ifs
      · exact execute_sell_nodup _ _ _ _ _ h
      · exact h

theorem tp_phase_flags (env : Env) (sellOk : Bool) (sym : String) (cp : ℚ)
    (trade : Trade) (store : Store) (hnd : (store.map Prod.fst).Nodup) :
    ∀ s' t', storeGet (tp_phase env sellOk sym cp trade store).1 s' = some t' →
      ∃ t, storeGet store s' = some t ∧
        ∀ i, tpFilledAt t i = true → tpFilledAt t' i = true := by
  intro s' t'
  unfold tp_phase
  split
  · exact tp_loop_flags _ _ _ _ _ _ _ _ _ hnd s' t'
  · split_ifs
    · exact fun hh => ⟨t', hh, fun i hi => hi⟩
    · dsimp only
      split_ifs
      · intro hh
        obtain ⟨t, hget, hfl, _⟩ := execute_sell_tp_flags env sellOk sym _ store hnd s' t' hh
        exact ⟨t, hget, fun i hi => by rw [tpFilledAt_congr hfl]; exact hi⟩
      · exact fun hh => ⟨t', hh, fun i hi => hi⟩

theorem handle_symbol_SizeInv (env : Env) (sellOk : Bool) (sym : String)
    (store : Store) (h : SizeInv store) :
    SizeInv (handle_symbol env sellOk sym store).1 := by
  unfold handle_symbol
  split
  · exact h
  · split
    · exact h
    · exact h
    · split
      · split_ifs
        · exact execute_sell_SizeInv _ _ _ _ _ h
        · exact tp_phase_SizeInv _ _ _ _ _ _ h
      · split_ifs
        · exact h
        · dsimp only
          split_ifs
          · exact execute_sell_SizeInv _ _ _ _ _ h
          · exact tp_phase_SizeInv _ _ _ _ _ _ h

theorem handle_symbol_NoZero (env : Env) (sellOk : Bool) (sym : String)
    (store : Store) (h : NoZeroSize store) :
    NoZeroSize (handle_symbol env sellOk sym store).1 := by
  unfold handle_symbol
  split
  · exact h
  · split
    · exact h
    · exact h
    · split
      · split_ifs
        · exact execute_sell_NoZero _ _ _ _ _ h
        · exact tp_phase_NoZero _ _ _ _ _ _ h
      · split_ifs
        · exact h
        · dsimp only
          split_ifs
          · exact execute_sell_NoZero _ _ _ _ _ h
          · exact tp_phase_NoZero _ _ _ _ _ _ h

theorem handle_symbol_nodup (env : Env) (sellOk : Bool) (sym : String)
    (store : Store) (h : (store.map Prod.fst).Nodup) :
    (((handle_symbol env sellOk sym store).1).map Prod.fst).Nodup := by
  unfold handle_symbol
  split
  · exact h
  · split
    · exact h
    · exact h
    · split
      · split_ifs
        · exact execute_sell_nodup _ _ _ _ _ h
        · exact tp_phase_nodup _ _ _ _ _ _ h
      · split_ifs
        · exact h
        · dsimp only
          split_ifs
          · exact execute_sell_nodup _ _ _ _ _ h
          · exact tp_phase_nodup _ _ _ _ _ _ h

theorem handle_symbol_flags (env : Env) (sellOk : Bool) (sym : String)
    (store : Store) (hnd : (store.map Prod.fst).Nodup) :
    ∀ s' t', storeGet (handle_symbol env sellOk sym store).1 s' = some t' →
      ∃ t, storeGet store s' = some t ∧
        ∀ i, tpFilledAt t i = true → tpFilledAt t' i = true := by
  intro s' t'
  unfold handle_symbol
  split
  · exact fun hh => ⟨t', hh, fun i hi => hi⟩
  · split
    · exact fun hh => ⟨t', hh, fun i hi => hi⟩
    · exact fun hh => ⟨t', hh, fun i hi => hi⟩
    · split
      · split_ifs
        · intro hh
          obtain ⟨t, hget, hfl, _⟩ := execute_sell_tp_flags env sellOk sym _ store hnd s' t' hh
          exact ⟨t, hget, fun i hi => by rw [tpFilledAt_congr hfl]; exact hi⟩
        · exact tp_phase_flags _ _ _ _ _ _ hnd s' t'
      · split_ifs
        · exact fun hh => ⟨t', hh, fun i hi => hi⟩
        · dsimp only
          split_ifs
          · intro hh
            obtain ⟨t, hget, hfl, _⟩ := execute_sell_tp_flags env sellOk sym _ store hnd s' t' hh
            exact ⟨t, hget, fun i hi => by rw [tpFilledAt_congr hfl]; exact hi⟩
          · exact tp_phase_flags _ _ _ _ _ _ hnd s' t'

theorem sweep_go_SizeInv (env : Env) (sellOk : String → Bool) (n : ℕ) :
    ∀ (keys : List String) (store : Store) (evs : List Event), SizeInv store →
      SizeInv (sweep_go env sellOk n keys store evs).store := by
  intro keys
  induction keys with
  | nil =>
    intro store evs h
    rw [sweep_go]
    split_ifs <;> exact h
  | cons sym rest ih =>
    intro store evs h
    rw [sweep_go]
    split_ifs with h1
    · exact ih _ _ (handle_symbol_SizeInv env (sellOk sym) sym store h)
    · exact h

theorem sweep_go_NoZero (env : Env) (sellOk : String → Bool) (n : ℕ) :
    ∀ (keys : List String) (store : Store) (evs : List Event), NoZeroSize store →
      NoZeroSize (sweep_go env sellOk n keys store evs).store := by
  intro keys
  induction keys with
  | nil =>
    intro store evs h
    rw [sweep_go]
    split_ifs <;> exact h
  | cons sym rest ih =>
    intro store evs h
    rw [sweep_go]
    split_ifs with h1
    · exact ih _ _ (handle_symbol_NoZero env (sellOk sym) sym store h)
    · exact h

theorem sweep_go_flags (env : Env) (sellOk : String → Bool) (n : ℕ) :
    ∀ (keys : List String) (store : Store) (evs : List Event),
      (store.map Prod.fst).Nodup →
      ∀ s' t', storeGet (sweep_go env sellOk n keys store evs).store s' = some t' →
        ∃ t, storeGet store s' = some t ∧
          ∀ i, tpFilledAt t i = true → tpFilledAt t' i = true := by
  intro keys
  induction keys with
  | nil =>
    intro store evs _ s' t' hh
    rw [sweep_go] at hh
    split_ifs at hh <;> exact ⟨t', hh, fun i hi => hi⟩
  | cons sym rest ih =>
    intro store evs hnd s' t' hh
    rw [sweep_go] at hh
    split_ifs at hh with h1
    · obtain ⟨t1, hget1, hmono1⟩ :=
        ih _ _ (handle_symbol_nodup env (sellOk sym) sym store hnd) s' t' hh
      obtain ⟨t, hget, hmono⟩ := handle_symbol_flags env (sellOk sym) sym store hnd s' t1 hget1
      exact ⟨t, hget, fun i hi => hmono1 i (hmono i hi)⟩
    · exact ⟨t', hh, fun i hi => hi⟩

theorem ladder_fills_nonneg (env : Env) (legOk : ℕ → Bool) (n : ℕ) :
    ∀ (entries : List ℚ) (i : ℕ), 0 ≤ (ladder_fills env legOk n entries i).1 := by
  intro entries
  induction entries with
  | nil => intro i; simp [ladder_fills]
  | cons e rest ih =>
    intro i
    rw [ladder_fills]
    try dsimp only
    split_ifs with h1 h2
    · exact ih (i + 1)
    · have := ih (i + 1)
      have hpos : 0 < get_position_size env e / (n : ℚ) := lt_of_not_le h1
      linarith
    · exact ih (i + 1)


theorem execute_buy_SizeInv (env : Env) (legOk : ℕ → Bool) (sig : Signal)
    (store : Store) (h : SizeInv store) :
    SizeInv (execute_buy env legOk sig store).2 := by
  unfold execute_buy
  try dsimp only
  split
  · exact h
  · split
    · try dsimp only
      split_ifs with h1
      · exact h
      · apply SizeInv_storeSet _ _ _ h
        exact ⟨ladder_fills_nonneg env legOk _ _ 0, le_refl _⟩
    · try dsimp only
      split
      · exact h
      · try dsimp only
        split_ifs with h1 h2
        · exact h
        · exact h
        · apply SizeInv_storeSet _ _ _ h
          exact ⟨le_of_lt (lt_of_not_le h1), le_refl _⟩

theorem execute_buy_NoZero (env : Env) (legOk : ℕ → Bool) (sig : Signal)
    (store : Store) (h : NoZeroSize store) :
    NoZeroSize (execute_buy env legOk sig store).2 := by
  unfold execute_buy
  try dsimp only
  split
  · exact h
  · split
    · try dsimp only
      split_ifs with h1
      · exact h
      · apply NoZeroSize_storeSet _ _ _ h
        exact lt_of_le_of_ne (ladder_fills_nonneg env legOk _ _ 0) (fun hh => h1 hh.symm)
    · try dsimp only
      split
      · exact h
      · try dsimp only
        split_ifs with h1 h2
        · exact h
        · exact h
        · exact NoZeroSize_storeSet _ _ _ h (lt_of_not_le h1)

theorem receive_SizeInv (env : Env) (legOk : ℕ → Bool) (sellOk : Bool)
    (sig : Signal) (store : Store) (h : SizeInv store) :
    SizeInv (receive_trade_signal env legOk sellOk sig store).2 := by
  unfold receive_trade_signal
  split_ifs with h1 h2 h3 h4
  · exact SizeInv_storeSet _ _ _ h ⟨le_refl _, le_refl _⟩
  · exact h
  · exact execute_buy_SizeInv _ _ _ _ h
  · exact execute_sell_SizeInv _ _ _ _ _ h
  · exact h

theorem c1_applyOp_SizeInv (op : Op) (store : Store) (h : SizeInv store) :
    SizeInv (applyOp op store) := by
  cases op with
  | signal env legOk sellOk sig => exact receive_SizeInv env legOk sellOk sig store h
  | buy env legOk sig => exact execute_buy_SizeInv env legOk sig store h
  | sell env sellOk sym req => exact execute_sell_SizeInv env sellOk sym req store h
  | monitor env sellOk => exact sweep_go_SizeInv env sellOk _ _ store [] h

theorem c1_applyOp_NoZero (op : Op) (store : Store) (hz : NoZeroSize store)
    (hop : Op.isSimBuy op = false) : NoZeroSize (applyOp op store) := by
  cases op with
  | signal env legOk sellOk sig =>
    show NoZeroSize (receive_trade_signal env legOk sellOk sig store).2
    unfold receive_trade_signal
    split_ifs with h1 h2 h3 h4
    · exact absurd hop (by simp [Op.isSimBuy, h1, h2])
    · exact hz
    · exact execute_buy_NoZero _ _ _ _ hz
    · exact execute_sell_NoZero _ _ _ _ _ hz
    · exact hz
  | buy env legOk sig => exact execute_buy_NoZero env legOk sig store hz
  | sell env sellOk sym req => exact execute_sell_NoZero env sellOk sym req store hz
  | monitor env sellOk => exact sweep_go_NoZero env sellOk _ _ store [] hz

theorem sum_map_div (l : List ℚ) (c : ℚ) :
    (l.map (fun x => x / c)).sum = l.sum / c := by
  induction l with
  | nil => simp
  | cons x rest ih => simp [ih, add_div]

theorem parse_tp_fractions_length (raw : Option (List ℚ)) (n : ℕ) :
    (parse_tp_fractions raw n).length = n := by
  unfold parse_tp_fractions
  cases raw with
  | none =>
    split_ifs with h
    · simp
    · simp [Nat.eq_zero_of_not_pos h]
  | some parts =>
    dsimp only
    split_ifs with h1 h2 h3 h4
    · simp
    · simp [Nat.eq_zero_of_not_pos h2]
    · simp
    · simp [Nat.eq_zero_of_not_pos h4]
    · rw [List.length_map]
      exact not_ne_iff.mp h1

/-- C7 (confirmed): for every levelCount ≥ 1, `_parse_tp_fractions` returns
levelCount fractions; with no TP_FRACTIONS weighting each is 1/levelCount;
with a supplied weighting whose token count mismatches levelCount or whose
(percent-converted) weights sum to ≤ 0 it falls back to the same equal split;
otherwise it returns the supplied weights (percentages > 1 first divided by
100) normalized to sum to exactly 1. -/
theorem c7_allocate (n : ℕ) (hn : 1 ≤ n) (parts : List ℚ) :
    parse_tp_fractions none n = List.replicate n (1 / (n : ℚ))
    ∧ (parse_tp_fractions (some parts) n).length = n
    ∧ ((parts.map (fun v => if 1 < v then v / 100 else v)).length ≠ n ∨
        (parts.map (fun v => if 1 < v then v / 100 else v)).sum ≤ 0 →
        parse_tp_fractions (some parts) n = List.replicate n (1 / (n : ℚ)))
    ∧ ((parts.map (fun v => if 1 < v then v / 100 else v)).length = n →
        0 < (parts.map (fun v => if 1 < v then v / 100 else v)).sum →
        parse_tp_fractions (some parts) n =
          (parts.map (fun v => if 1 < v then v / 100 else v)).map
            (fun x => x / (parts.map (fun v => if 1 < v then v / 100 else v)).sum)
        ∧ (parse_tp_fractions (some parts) n).sum = 1) := by
  have hn0 : 0 < n := hn
  refine ⟨?_, parse_tp_fractions_length _ _, ?_, ?_⟩
  · unfold parse_tp_fractions
    rw [if_pos hn0]
  · intro hcase
    unfold parse_tp_fractions
    dsimp only
    simp only [if_pos hn0]
    split_ifs with h1 h2
    · rfl
    · rfl
    · rcases hcase with hc | hc
      · exact absurd hc h1
      · exact absurd hc h2
  · intro hlen hsum
    unfold parse_tp_fractions
    dsimp only
    simp only [if_pos hn0]
    split_ifs with h1 h2
    · exact absurd hlen h1
    · exact absurd h2 (not_le.mpr hsum)
    · refine ⟨rfl, ?_⟩
      show (List.map _ (parts.map (fun v => if 1 < v then v / 100 else v))).sum = 1
      rw [sum_map_div]
      exact div_self (ne_of_gt hsum)

unseal Rat.add Rat.sub Rat.mul Rat.inv Rat.ofScientific in
theorem c7_allocate_witness :
    1 ≤ 3 ∧ parse_tp_fractions (some [50, 30, 20]) 3 =
      [50 / 100 / 1, 30 / 100 / 1, 20 / 100 / 1] := by
  refine ⟨by decide, ?_⟩
  have h := ((c7_allocate 3 (by decide) [50, 30, 20]).2.2.2 (by decide) (by decide)).1
  rw [h]
  decide

theorem containsSub_spec (needle hay : List Char) :
    containsSub needle hay = true ↔ needle <:+: hay := by
  induction hay with
  | nil =>
    rw [containsSub]
    rw [List.isEmpty_iff, List.infix_nil]
  | cons c t ih =>
    rw [containsSub]
    rw [Bool.or_eq_true, List.isPrefixOf_iff_prefix, ih, List.infix_cons_iff]

/-- C9 counterexample: in the uppercased message BUY BTC AT 500 TARGET 1500K
the cascade (pattern 7) matches the numeric token 500 at position 11, which is
immediately followed by a space — not by K or M — yet the K multiplier (×1000)
is applied, because the text 1500K elsewhere in the message contains the
substring 500K.  This refutes the claim that the multiplier is applied only
when the matched token itself is immediately followed by K or M. -/
theorem c9_counterexample :
    numTokenAt kmMessage kmTok 11 = true
    ∧ (kmMessage.drop (11 + kmTok.length)).head? ≠ some ('K')
    ∧ (kmMessage.drop (11 + kmTok.length)).head? ≠ some ('M')
    ∧ price_multiplier kmMessage kmTok = 1000
    ∧ normalize_price kmMessage kmTok 500 = 500000 := by
  refine ⟨by decide, by decide, by decide, by decide, ?_⟩
  show (500 : ℚ) * price_multiplier kmMessage kmTok = 500000
  norm_num [show price_multiplier kmMessage kmTok = 1000 from by decide]

/-- C9 (amended): the K multiplier (×1000) is applied iff the matched digits
immediately followed by K occur as a substring anywhere in the uppercased
message; the M multiplier (×1000000) iff that K-string does not occur but the
digits followed by M do; otherwise the price is unscaled.  In particular an
occurrence inside a longer number elsewhere in the message (such as 500K
inside 1500K) rescales the matched price. -/
theorem c9_amended (message tok : List Char) :
    (price_multiplier message tok = 1000 ↔ (tok ++ ['K']) <:+: message)
    ∧ (price_multiplier message tok = 1000000 ↔
        ¬ (tok ++ ['K']) <:+: message ∧ (tok ++ ['M']) <:+: message)
    ∧ (price_multiplier message tok = 1 ↔
        ¬ (tok ++ ['K']) <:+: message ∧ ¬ (tok ++ ['M']) <:+: message) := by
  unfold price_multiplier
  by_cases hk : containsSub (tok ++ ['K']) message
  · rw [if_pos hk]
    rw [containsSub_spec] at hk
    refine ⟨⟨fun _ => hk, fun _ => rfl⟩, ⟨fun hh => absurd hh (by norm_num), ?_⟩,
      ⟨fun hh => absurd hh (by norm_num), fun hh => absurd hk hh.1⟩⟩
    intro hh
    exact absurd hk hh.1
  · rw [if_neg hk]
    rw [containsSub_spec] at hk
    by_cases hm : containsSub (tok ++ ['M']) message
    · rw [if_pos hm]
      rw [containsSub_spec] at hm
      refine ⟨⟨fun hh => absurd hh (by norm_num), fun hh => absurd hh hk⟩,
        ⟨fun _ => ⟨hk, hm⟩, fun _ => rfl⟩,
        ⟨fun hh => absurd hh (by norm_num), fun hh => absurd hm hh.2⟩⟩
    · rw [if_neg hm]
      rw [containsSub_spec] at hm
      refine ⟨⟨fun hh => absurd hh (by norm_num), fun hh => absurd hh hk⟩,
        ⟨fun hh => absurd hh (by norm_num), fun hh => absurd hh.2 hm⟩,
        ⟨fun _ => ⟨hk, hm⟩, fun _ => rfl⟩⟩

unseal Rat.add Rat.sub Rat.mul Rat.inv Rat.ofScientific in
/-- C4 (code bug): `execute_buy` on a symbol that already has a tracked
Position does not reject — it reports success and silently replaces the
stored Position with the freshly opened one (the source assigns
`active_trades[symbol] = {...}` unconditionally).  Here the pre-existing BTC
position `oldTrade` is replaced by a new one opened at 50000. -/
theorem c4_open_overwrites :
    (execute_buy (liveEnv 50000) (fun _ => true) limitBuyBTC [(("BTC"), oldTrade)]).1 = true
    ∧ storeGet (execute_buy (liveEnv 50000) (fun _ => true) limitBuyBTC
        [(("BTC"), oldTrade)]).2 ("BTC") ≠ some oldTrade
    ∧ (execute_buy (liveEnv 50000) (fun _ => true) limitBuyBTC
        [(("BTC"), oldTrade)]).2 ≠ [(("BTC"), oldTrade)] := by decide

unseal Rat.add Rat.sub Rat.mul Rat.inv Rat.ofScientific in
/-- C8 (code bug): a monitor sweep does not survive a full close.  With two
positions whose stop-losses are both crossed at price 40000, handling the
first symbol deletes its Position from the dict; the `for ... in
active_trades.items()` statement then raises RuntimeError (dictionary changed
size during iteration) outside the per-symbol try/except, aborting the sweep:
the result is `raised = true` and the second symbol — whose stop-loss is also
crossed — is never evaluated (no events for it, its Position untouched). -/
theorem c8_sweep_raises :
    check_positions (simEnv 40000) (fun _ => true)
      [(("AAA"), stopTrade), (("BBB"), stopTrade)] =
      ⟨true, [(("BBB"), stopTrade)],
        [Event.stopHit ("AAA"), Event.sellOrder ("AAA") 1 40000 true]⟩ := by decide

unseal Rat.add Rat.sub Rat.mul Rat.inv Rat.ofScientific in
/-- C1 counterexample: a simulation-mode BUY signal inserts a Position with
`currentSize = 0` (and no `initial_position_size` key) into the store, and a
full monitor sweep at a price far below entry (stop-loss percentage crossed)
leaves that zero-size Position in the store: a zero-size Position is retained
across sweeps, refuting "currentSize reaching 0 implies removal within the
same sweep" over all open/close/monitor sequences. -/
theorem c1_counterexample :
    (receive_trade_signal (simEnv 52500) (fun _ => true) true buySignalBTC []).2 =
      [(("BTC"), zeroSimTrade)]
    ∧ zeroSimTrade.position_size = 0
    ∧ (check_positions (simEnv 40000) (fun _ => true) [(("BTC"), zeroSimTrade)]).store =
      [(("BTC"), zeroSimTrade)]
    ∧ (check_positions (simEnv 40000) (fun _ => true)
        [(("BTC"), zeroSimTrade)]).raised = false := by decide

/-- C1 (amended): along every sequence of open (live or simulated), close and
monitor operations, every stored Position satisfies
`0 ≤ currentSize ≤ initialSize` (with `initialSize` read as the monitor reads
it, defaulting to `currentSize` when the key is absent); and every operation
other than a simulation-mode BUY also preserves "no stored Position has size
≤ 0" — a closed-to-zero Position is removed, never stored at zero — while a
simulation-mode BUY inserts a zero-size Position that is then retained. -/
theorem c1_size_invariant (op : Op) (store : Store) (h : SizeInv store) :
    SizeInv (applyOp op store)
    ∧ (NoZeroSize store → Op.isSimBuy op = false → NoZeroSize (applyOp op store)) :=
  ⟨c1_applyOp_SizeInv op store h,
   fun hz hop => c1_applyOp_NoZero op store hz hop⟩

unseal Rat.add Rat.sub Rat.mul Rat.inv Rat.ofScientific in
theorem c1_size_invariant_witness :
    SizeInv [(("BTC"), oldTrade)]
    ∧ SizeInv (applyOp (Op.monitor (simEnv 40000) (fun _ => true)) [(("BTC"), oldTrade)])
    ∧ NoZeroSize (applyOp (Op.monitor (simEnv 40000) (fun _ => true)) [(("BTC"), oldTrade)]) := by
  have h0 : SizeInv [(("BTC"), oldTrade)] := by
    intro p hp
    simp only [List.mem_singleton] at hp
    rw [hp]
    exact ⟨by decide, by decide⟩
  have hz0 : NoZeroSize [(("BTC"), oldTrade)] := by
    intro p hp
    simp only [List.mem_singleton] at hp
    rw [hp]
    decide
  refine ⟨h0, (c1_size_invariant (Op.monitor (simEnv 40000) (fun _ => true))
    [(("BTC"), oldTrade)] h0).1, (c1_size_invariant (Op.monitor (simEnv 40000)
    (fun _ => true)) [(("BTC"), oldTrade)] h0).2 hz0 (by decide)⟩

theorem pyUpper_MARKET : pyUpper ("MARKET") = ("MARKET") := by decide

/-- C5 (confirmed): for a close request on an existing Position (with the
execution price resolving, and a nonzero entry price as every tracked
Position has), the size closed is `currentSize × clamp(sellFraction, 0, 1)`
(`sellFraction` defaulting to 1); if that size is ≤ 0 the call fails as a
no-op leaving the store untouched; otherwise, when the order placement
succeeds (simulation mode or venue success), the call succeeds, issues one
close order of exactly that size, and decrements `currentSize` by exactly
that size — removing the Position when the remainder is ≤ 0 and persisting
the reduced size otherwise.  In particular `sellFraction = 1.5` clamps to 1
and is not rejected (see the witness). -/
theorem c5_close_sizing (env : Env) (sellOk : Bool) (sym : String) (req : SellReq)
    (store : Store) (trade : Trade) (px : ℚ)
    (hl : storeGet store sym = some trade)
    (he : trade.entry_price ≠ 0)
    (hp : resolve_exec_price env sym req = some px) :
    (trade.position_size * max 0 (min 1 (req.sell_fraction.getD 1)) ≤ 0 →
      execute_sell env sellOk sym req store = ⟨false, store, []⟩)
    ∧ (0 < trade.position_size * max 0 (min 1 (req.sell_fraction.getD 1)) →
       (env.simulation = true ∨ sellOk = true) →
       execute_sell env sellOk sym req store =
         ⟨true,
          (if trade.position_size - trade.position_size * max 0 (min 1 (req.sell_fraction.getD 1)) ≤ 0
           then storeDel store sym
           else storeSet store sym
             { trade with position_size :=
                 trade.position_size -
                   trade.position_size * max 0 (min 1 (req.sell_fraction.getD 1)) }),
          [Event.sellOrder sym
            (trade.position_size * max 0 (min 1 (req.sell_fraction.getD 1))) px true]⟩) := by
  constructor
  · intro hsz
    unfold execute_sell
    rw [hl]
    dsimp only
    rw [hp]
    dsimp only
    rw [if_pos hsz]
  · intro hsz hok
    have hnot : ¬ (env.simulation = false ∧ sellOk = false) := by
      rcases hok with h | h <;> simp [h]
    unfold execute_sell
    rw [hl]
    dsimp only
    rw [hp]
    dsimp only
    rw [if_neg (not_le.mpr hsz), if_neg hnot, if_neg he]
    split_ifs <;> rfl

unseal Rat.add Rat.sub Rat.mul Rat.inv Rat.ofScientific in
theorem c5_close_sizing_witness :
    storeGet [(("BTC"), ladderTrade)] ("BTC") = some ladderTrade
    ∧ ladderTrade.entry_price ≠ 0
    ∧ resolve_exec_price (simEnv 60000) ("BTC") ⟨0, "MARKET", some (3 / 2)⟩ = some 60000
    ∧ 0 < ladderTrade.position_size * max 0 (min 1 ((some ((3 : ℚ) / 2)).getD 1))
    ∧ execute_sell (simEnv 60000) true ("BTC") ⟨0, "MARKET", some (3 / 2)⟩
        [(("BTC"), ladderTrade)] =
        ⟨true, [], [Event.sellOrder ("BTC") 10 60000 true]⟩ := by
  refine ⟨by decide, by decide, by decide, by decide, ?_⟩
  have h := (c5_close_sizing (simEnv 60000) true ("BTC") ⟨0, "MARKET", some (3 / 2)⟩
    [(("BTC"), ladderTrade)] ladderTrade 60000 (by decide) (by decide) (by decide)).2
    (by decide) (Or.inl (by decide))
  rw [h]
  decide

theorem tp_loop_no_stopHit (env : Env) (sellOk : Bool) (sym : String) (cp : ℚ)
    (fr : List ℚ) (ini cur : ℤ) (s : String) :
    ∀ (levels : List (ℕ × ℚ)) (store : Store),
      Event.stopHit s ∉ (tp_loop env sellOk sym cp fr ini cur levels store).2 := by
  intro levels
  induction levels with
  | nil => intro store; simp [tp_loop]
  | cons l rest ih =>
    obtain ⟨idx, tp⟩ := l
    intro store
    rw [tp_loop]
    cases hg : storeGet store sym with
    | none => simp
    | some trade =>
      dsimp only
      cases hf : trade.tp_filled with
      | none => simp
      | some fl =>
        dsimp only
        split_ifs with h1 h2 h3 h4 h5
        · exact ih store
        · intro hmem
          rcases List.mem_cons.mp hmem with h | hmem2
          · exact absurd h (by simp)
          rcases List.mem_cons.mp hmem2 with h | h
          · exact absurd h (by simp)
          · exact ih _ h
        · split
          next t' hg2 =>
            intro hmem
            rcases List.mem_cons.mp hmem with h | hmem2
            · exact absurd h (by simp)
            rcases List.mem_append.mp hmem2 with h | h
            · have := execute_sell_events_sell env sellOk sym _ store _ h
              simp [isSellEv] at this
            · simp only [List.mem_singleton] at h
              exact absurd h (by simp)
          next hg2 =>
            intro hmem
            rcases List.mem_cons.mp hmem with h | h
            · exact absurd h (by simp)
            · have := execute_sell_events_sell env sellOk sym _ store _ h
              simp [isSellEv] at this
        · simp
        · exact ih store
        · simp

theorem tp_phase_no_stopHit (env : Env) (sellOk : Bool) (sym : String) (cp : ℚ)
    (trade : Trade) (store : Store) (s : String) :
    Event.stopHit s ∉ (tp_phase env sellOk sym cp trade store).2 := by
  unfold tp_phase
  split
  · exact tp_loop_no_stopHit env sellOk sym cp _ _ _ s _ store
  · split_ifs
    · simp
    · dsimp only
      split_ifs
      · intro hmem
        rcases List.mem_cons.mp hmem with h | h
        · exact absurd h (by simp)
        · have := execute_sell_events_sell env sellOk sym _ store _ h
          simp [isSellEv] at this
      · simp

/-- C3 (confirmed): in a monitor sweep, the stop-loss is evaluated first.
With an absolute `stopLoss` set, a stop-loss trigger (logged as a stop-hit
event followed only by the close-order placement) happens exactly when
`price ≤ stopLoss`, and then the symbol's whole handling is the full MARKET
close — take-profit evaluation is skipped.  With no absolute stop loss (and a
nonzero entry price, as every tracked Position has), the trigger happens
exactly when `(price − avgEntry)/avgEntry × leverage ≤ −stopLossPercentage`.
When the triggered full MARKET close can execute (nonzero price, nonzero
entry, positive size, venue success or simulation) the Position is removed
from the store. -/
theorem c3_stop_loss_first (env : Env) (sellOk : Bool) (sym : String)
    (store : Store) (trade : Trade) (p : ℚ)
    (hl : storeGet store sym = some trade)
    (hm : env.market sym = some (some p)) :
    (∀ sl, trade.stop_loss = some sl →
       ((Event.stopHit sym ∈ (handle_symbol env sellOk sym store).2) ↔ p ≤ sl)
       ∧ (p ≤ sl →
           handle_symbol env sellOk sym store =
             ((execute_sell env sellOk sym ⟨p, "MARKET", none⟩ store).store,
              Event.stopHit sym :: (execute_sell env sellOk sym ⟨p, "MARKET", none⟩ store).events)))
    ∧ (trade.stop_loss = none → trade.entry_price ≠ 0 →
       ((Event.stopHit sym ∈ (handle_symbol env sellOk sym store).2) ↔
          (p - trade.entry_price) / trade.entry_price * trade.leverage ≤ -env.stop_loss_percentage)
       ∧ ((p - trade.entry_price) / trade.entry_price * trade.leverage ≤ -env.stop_loss_percentage →
           handle_symbol env sellOk sym store =
             ((execute_sell env sellOk sym ⟨p, "MARKET", none⟩ store).store,
              Event.stopHit sym :: (execute_sell env sellOk sym ⟨p, "MARKET", none⟩ store).events)))
    ∧ (∀ sl, trade.stop_loss = some sl → p ≤ sl → p ≠ 0 → trade.entry_price ≠ 0 →
        0 < trade.position_size → (env.simulation = true ∨ sellOk = true) →
        (store.map Prod.fst).Nodup →
        storeGet (handle_symbol env sellOk sym store).1 sym = none) := by
  have hres : resolve_exec_price env sym ⟨p, "MARKET", none⟩ = some p ∨ p = 0 := by
    by_cases hp0 : p = 0
    · exact Or.inr hp0
    · refine Or.inl ?_
      unfold resolve_exec_price
      rw [hm]
      try dsimp only
      rw [pyUpper_MARKET, if_pos rfl]
      simp only [Option.getD_some]
      rw [if_neg hp0]
  refine ⟨?_, ?_, ?_⟩
  · intro sl hsl
    unfold handle_symbol
    rw [hl]
    try dsimp only
    rw [hm]
    try dsimp only
    rw [hsl]
    try dsimp only
    constructor
    · by_cases hple : p ≤ sl
      · rw [if_pos hple]
        exact iff_of_true (List.mem_cons_self _ _) hple
      · rw [if_neg hple]
        exact iff_of_false (tp_phase_no_stopHit env sellOk sym p trade store sym) hple
    · intro hple
      rw [if_pos hple]
  · intro hsl he
    unfold handle_symbol
    rw [hl]
    try dsimp only
    rw [hm]
    try dsimp only
    rw [hsl]
    try dsimp only
    rw [if_neg he]
    try dsimp only
    constructor
    · by_cases htr : (p - trade.entry_price) / trade.entry_price * trade.leverage ≤ -env.stop_loss_percentage
      · rw [if_pos htr]
        exact iff_of_true (List.mem_cons_self _ _) htr
      · rw [if_neg htr]
        exact iff_of_false (tp_phase_no_stopHit env sellOk sym p trade store sym) htr
    · intro htr
      rw [if_pos htr]
  · intro sl hsl hple hp0 he hpos hok hnd
    unfold handle_symbol
    rw [hl]
    try dsimp only
    rw [hm]
    try dsimp only
    rw [hsl]
    try dsimp only
    rw [if_pos hple]
    try dsimp only
    rcases hres with hres | hres
    · unfold execute_sell
      rw [hl]
      try dsimp only
      rw [hres]
      try dsimp only
      have hf1 : max (0 : ℚ) (min 1 ((none : Option ℚ).getD 1)) = 1 := by
        simp
      rw [hf1, mul_one]
      rw [if_neg (not_le.mpr hpos)]
      have hnot : ¬ (env.simulation = false ∧ sellOk = false) := by
        rcases hok with h | h <;> simp [h]
      rw [if_neg hnot, if_neg he, sub_self, if_pos (le_refl (0 : ℚ))]
      exact storeGet_storeDel_self store sym hnd
    · exact absurd hres hp0

unseal Rat.add Rat.sub Rat.mul Rat.inv Rat.ofScientific in
theorem c3_stop_loss_first_witness :
    storeGet [(("AAA"), stopTrade)] ("AAA") = some stopTrade
    ∧ (simEnv 40000).market ("AAA") = some (some 40000)
    ∧ storeGet (handle_symbol (simEnv 40000) true ("AAA") [(("AAA"), stopTrade)]).1 ("AAA") = none := by
  refine ⟨by decide, by decide, ?_⟩
  exact (c3_stop_loss_first (simEnv 40000) true ("AAA") [(("AAA"), stopTrade)] stopTrade 40000
    (by decide) (by decide)).2.2 45000 (by decide) (by decide) (by decide) (by decide)
    (by decide) (Or.inl (by decide)) (by decide)

theorem storeSet_self (s : Store) (k : String) (t : Trade)
    (h : storeGet s k = some t) : storeSet s k t = s := by
  induction s with
  | nil => simp [storeGet] at h
  | cons q rest ih =>
    obtain ⟨a, b⟩ := q
    by_cases ha : a = k
    · subst ha
      rw [show storeGet ((a, b) :: rest) a = some b from by simp [storeGet]] at h
      injection h with h
      subst h
      simp [storeSet]
    · simp only [storeGet, if_neg ha] at h
      simp [storeSet, ha, ih h]

theorem storeSet_storeSet (s : Store) (k : String) (v w : Trade) :
    storeSet (storeSet s k v) k w = storeSet s k w := by
  induction s with
  | nil => simp [storeSet]
  | cons q rest ih =>
    obtain ⟨a, b⟩ := q
    by_cases ha : a = k
    · subst ha
      simp [storeSet]
    · simp [storeSet, ha, ih]

theorem markTp_eq (t : Trade) (fl : List Bool) (idx : ℕ) (h : t.tp_filled = some fl) :
    markTp t idx = { t with tp_filled := some (fl.set idx true) } := by
  unfold markTp
  rw [h]
  rfl

theorem tp_loop_cur_nonpos (env : Env) (sellOk : Bool) (sym : String) (cp : ℚ)
    (fr : List ℚ) (ini cur : ℤ) (hcur : cur ≤ 0) :
    ∀ (tps : List ℚ) (k : ℕ) (store : Store) (trade : Trade) (fl : List Bool),
      storeGet store sym = some trade →
      trade.tp_filled = some fl →
      k + tps.length ≤ fl.length →
      k + tps.length ≤ fr.length →
      (∀ e ∈ (tp_loop env sellOk sym cp fr ini cur (List.enumFrom k tps) store).2,
        isSellEv e = false)
      ∧ (tp_loop env sellOk sym cp fr ini cur (List.enumFrom k tps) store).1 =
          storeSet store sym
            { trade with tp_filled := some (markSweep cp fl (List.enumFrom k tps)) } := by
  intro tps
  induction tps with
  | nil =>
    intro k store trade fl hget hfl _ _
    constructor
    · intro e he
      simp [tp_loop, List.enumFrom] at he
    · show store = _
      simp only [List.enumFrom, markSweep]
      rw [← hfl]
      rw [storeSet_self store sym trade hget]
  | cons tp rest ih =>
    intro k store trade fl hget hfl hb1 hb2
    have hk : k < fl.length := by simp at hb1; omega
    have hkf : k < fr.length := by simp at hb2; omega
    rw [show List.enumFrom k (tp :: rest) = (k, tp) :: List.enumFrom (k + 1) rest from rfl]
    rw [tp_loop]
    rw [hget]
    dsimp only
    rw [hfl]
    dsimp only
    rw [if_pos hk]
    by_cases hfilled : fl.getD k false
    · rw [if_pos hfilled]
      have hrec := ih (k + 1) store trade fl hget hfl (by simp at hb1 ⊢; omega)
        (by simp at hb2 ⊢; omega)
      simp only [markSweep]
      rw [if_pos hfilled]
      exact hrec
    · rw [if_neg hfilled]
      by_cases hcross : tp ≤ cp
      · rw [if_pos hcross, if_pos hkf, if_pos (Or.inr hcur)]
        have hget' : storeGet (storeSet store sym (markTp trade k)) sym =
            some (markTp trade k) := storeGet_storeSet_self _ _ _
        have hfl' : (markTp trade k).tp_filled = some (fl.set k true) := by
          rw [markTp_eq trade fl k hfl]
        have hrec := ih (k + 1) (storeSet store sym (markTp trade k)) (markTp trade k)
          (fl.set k true) hget' hfl'
          (by simp at hb1 ⊢; omega) (by simp at hb2 ⊢; omega)
        constructor
        · intro e he
          rcases List.mem_cons.mp he with h | he2
          · rw [h]; rfl
          rcases List.mem_cons.mp he2 with h | h
          · rw [h]; rfl
          · exact hrec.1 e h
        · show (tp_loop env sellOk sym cp fr ini cur (List.enumFrom (k + 1) rest) _).1 = _
          rw [hrec.2]
          rw [markTp_eq trade fl k hfl]
          rw [storeSet_storeSet]
          simp only [markSweep]
          rw [if_neg hfilled, if_pos hcross]
      · rw [if_neg hcross]
        have hrec := ih (k + 1) store trade fl hget hfl (by simp at hb1 ⊢; omega)
          (by simp at hb2 ⊢; omega)
        simp only [markSweep]
        rw [if_neg hfilled, if_neg hcross]
        exact hrec

theorem markSweep_getD (cp : ℚ) :
    ∀ (tps : List ℚ) (k : ℕ) (fl : List Bool), k + tps.length ≤ fl.length →
      ∀ j, (markSweep cp fl (List.enumFrom k tps)).getD j false =
        (if k ≤ j ∧ j < k + tps.length then
          (fl.getD j false || decide (tps.getD (j - k) 0 ≤ cp))
         else fl.getD j false) := by
  intro tps
  induction tps with
  | nil =>
    intro k fl _ j
    simp only [List.enumFrom, markSweep]
    rw [if_neg (by simp only [List.length_nil]; omega)]
  | cons tp rest ih =>
    intro k fl hb j
    have hk : k < fl.length := by simp at hb; omega
    rw [show List.enumFrom k (tp :: rest) = (k, tp) :: List.enumFrom (k + 1) rest from rfl]
    simp only [markSweep]
    set fl1 := (if fl.getD k false = true then fl
      else if tp ≤ cp then fl.set k true else fl) with hfl1
    have hlen1 : fl1.length = fl.length := by
      rw [hfl1]
      split_ifs <;> simp
    have hrec := ih (k + 1) fl1 (by rw [hlen1]; simp at hb ⊢; omega) j
    rw [hrec]
    by_cases hjk : j = k
    · subst hjk
      rw [if_neg (by omega), if_pos (by simp only [List.length_cons]; omega)]
      have : fl1.getD j false = (fl.getD j false || decide (tp ≤ cp)) := by
        rw [hfl1]
        by_cases hf : fl.getD j false = true
        · rw [if_pos hf, hf]
          simp
        · rw [if_neg hf]
          simp only [Bool.not_eq_true] at hf
          rw [hf]
          by_cases hc : tp ≤ cp
          · rw [if_pos hc, getD_set_self fl j hk]
            simp [hc]
          · rw [if_neg hc, hf]
            simp [hc]
      rw [this]
      simp
    · have hfl1j : fl1.getD j false = fl.getD j false := by
        rw [hfl1]
        split_ifs <;> first | rfl | exact getD_set_ne fl true k j hjk false
      rw [hfl1j]
      by_cases hin : k + 1 ≤ j ∧ j < k + 1 + rest.length
      · rw [if_pos hin, if_pos (by simp only [List.length_cons]; omega)]
        have hd : j - k = (j - (k + 1)) + 1 := by omega
        rw [hd]
        rw [List.getD_cons_succ]
      · rw [if_neg hin, if_neg (by simp only [List.length_cons]; omega)]

/-- C10 (confirmed): the take-profit sweep truncates the initial and current
sizes to integers (Python `int()`) before sizing, so for every Position whose
`currentSize` is below one whole coin unit every crossed take-profit level
computes a zero close size: the take-profit phase issues no sell order,
leaves the stored position (in particular its size) otherwise untouched, and
marks exactly the crossed unfilled levels filled.  Take-profit ladders never
close any part of a sub-unit position. -/
theorem c10_subunit_tp (env : Env) (sellOk : Bool) (sym : String) (p : ℚ)
    (trade : Trade) (store : Store) (tps : List ℚ) (fl : List Bool)
    (htp : trade.take_profits = some tps) (htps : tps ≠ [])
    (hfl : trade.tp_filled = some fl) (hfln : fl ≠ [])
    (hlen : tps.length ≤ fl.length)
    (h0 : 0 ≤ trade.position_size) (h1 : trade.position_size < 1)
    (hget : storeGet store sym = some trade) :
    (∀ e ∈ (tp_phase env sellOk sym p trade store).2, isSellEv e = false)
    ∧ (tp_phase env sellOk sym p trade store).1 =
        storeSet store sym { trade with tp_filled := some (markSweep p fl tps.enum) }
    ∧ (∀ j, j < tps.length →
        (markSweep p fl tps.enum).getD j false =
          (fl.getD j false || decide (tps.getD j 0 ≤ p))) := by
  have hcur : pyInt trade.position_size ≤ 0 := by
    unfold pyInt
    rw [if_neg (not_lt.mpr h0)]
    have hflt : ⌊trade.position_size⌋ < 1 := by
      rw [Int.floor_lt]
      exact_mod_cast h1
    omega
  obtain ⟨a, as, rfl⟩ := List.exists_cons_of_ne_nil htps
  obtain ⟨b, bs, rfl⟩ := List.exists_cons_of_ne_nil hfln
  have hmain := tp_loop_cur_nonpos env sellOk sym p
    (parse_tp_fractions env.tp_fractions (a :: as).length)
    (pyInt (trade.initial_position_size.getD trade.position_size))
    (pyInt trade.position_size) hcur (a :: as) 0 store trade (b :: bs) hget hfl
    (by omega)
    (by rw [parse_tp_fractions_length]; omega)
  have hunf : tp_phase env sellOk sym p trade store =
      tp_loop env sellOk sym p (parse_tp_fractions env.tp_fractions (a :: as).length)
        (pyInt (trade.initial_position_size.getD trade.position_size))
        (pyInt trade.position_size) (List.enumFrom 0 (a :: as)) store := by
    unfold tp_phase
    rw [htp, hfl]
    rfl
  refine ⟨?_, ?_, ?_⟩
  · intro e he
    rw [hunf] at he
    exact hmain.1 e he
  · rw [hunf]
    exact hmain.2
  · intro j hj
    have hms := markSweep_getD p (a :: as) 0 (b :: bs) (by omega) j
    rw [show (a :: as).enum = List.enumFrom 0 (a :: as) from rfl]
    rw [hms]
    rw [if_pos ⟨Nat.zero_le j, by omega⟩]
    simp

unseal Rat.add Rat.sub Rat.mul Rat.inv Rat.ofScientific in
theorem c10_subunit_tp_witness :
    subUnitTrade.position_size < 1 ∧ 0 ≤ subUnitTrade.position_size
    ∧ (tp_phase (simEnv 60000) true ("BTC") 60000 subUnitTrade
        [(("BTC"), subUnitTrade)]).1 =
      storeSet [(("BTC"), subUnitTrade)] ("BTC")
        { subUnitTrade with tp_filled := some (markSweep 60000 [false, false, false]
            ([52000, 54000, 56000] : List ℚ).enum) } := by
  refine ⟨by decide, by decide, ?_⟩
  exact (c10_subunit_tp (simEnv 60000) true ("BTC") 60000 subUnitTrade
    [(("BTC"), subUnitTrade)] [52000, 54000, 56000] [false, false, false]
    (by decide) (by decide) (by decide) (by decide) (by decide) (by decide) (by decide)
    (by decide)).2.1

theorem tpFilledAt_of_fl {trade : Trade} {fl : List Bool} (hf : trade.tp_filled = some fl)
    (idx : ℕ) : tpFilledAt trade idx = fl.getD idx false := by
  unfold tpFilledAt
  rw [hf]
  rfl

theorem tp_loop_tpHit_unfilled (env : Env) (sellOk : Bool) (sym : String) (cp : ℚ)
    (fr : List ℚ) (ini cur : ℤ) :
    ∀ (levels : List (ℕ × ℚ)) (store : Store) (idx : ℕ),
      Event.tpHit sym idx ∈ (tp_loop env sellOk sym cp fr ini cur levels store).2 →
      ∃ t, storeGet store sym = some t ∧ tpFilledAt t idx = false := by
  intro levels
  induction levels with
  | nil => intro store idx hmem; simp [tp_loop] at hmem
  | cons l rest ih =>
    obtain ⟨k, tp⟩ := l
    intro store idx hmem
    rw [tp_loop] at hmem
    cases hg : storeGet store sym with
    | none => rw [hg] at hmem; simp at hmem
    | some trade =>
      rw [hg] at hmem
      dsimp only at hmem
      cases hf : trade.tp_filled with
      | none => rw [hf] at hmem; simp at hmem
      | some fl =>
        rw [hf] at hmem
        dsimp only at hmem
        split_ifs at hmem with h1 h2 h3 h4 h5
        · obtain ⟨t1, hget1, hfl1⟩ := ih store idx hmem
          rw [hg] at hget1
          exact ⟨t1, hget1, hfl1⟩
        · rcases List.mem_cons.mp hmem with h | hmem2
          · injection h with _ hidx
            refine ⟨trade, rfl, ?_⟩
            rw [tpFilledAt_of_fl hf, hidx]
            simpa using h2
          rcases List.mem_cons.mp hmem2 with h | hmem3
          · exact absurd h (by simp)
          · obtain ⟨t1, hget1, hfalse1⟩ := ih _ idx hmem3
            rw [storeGet_storeSet_self] at hget1
            injection hget1 with hget1
            refine ⟨trade, rfl, ?_⟩
            rw [← hget1] at hfalse1
            rw [markTp_eq trade fl k hf] at hfalse1
            rw [tpFilledAt_of_fl (show ({ trade with tp_filled := some (fl.set k true) } : Trade).tp_filled = some (fl.set k true) from rfl) idx] at hfalse1
            rw [tpFilledAt_of_fl hf]
            by_cases hik : idx = k
            · subst hik
              rw [getD_set_self fl idx h1] at hfalse1
              exact absurd hfalse1 (by simp)
            · rw [getD_set_ne fl true k idx hik false] at hfalse1
              exact hfalse1
        · revert hmem
          split
          next t'' hg2 =>
            intro hmem
            rcases List.mem_cons.mp hmem with h | hmem2
            · injection h with _ hidx
              refine ⟨trade, rfl, ?_⟩
              rw [tpFilledAt_of_fl hf, hidx]
              simpa using h2
            rcases List.mem_append.mp hmem2 with h | h
            · have := execute_sell_events_sell env sellOk sym _ store _ h
              simp [isSellEv] at this
            · simp only [List.mem_singleton] at h
              exact absurd h (by simp)
          next hg2 =>
            intro hmem
            rcases List.mem_cons.mp hmem with h | h
            · injection h with _ hidx
              refine ⟨trade, rfl, ?_⟩
              rw [tpFilledAt_of_fl hf, hidx]
              simpa using h2
            · have := execute_sell_events_sell env sellOk sym _ store _ h
              simp [isSellEv] at this
        · simp at hmem
        · obtain ⟨t1, hget1, hfl1⟩ := ih store idx hmem
          rw [hg] at hget1
          exact ⟨t1, hget1, hfl1⟩
        · simp at hmem

theorem tp_loop_tpHit_marked (env : Env) (sellOk : Bool) (sym : String) (cp : ℚ)
    (fr : List ℚ) (ini cur : ℤ) :
    ∀ (levels : List (ℕ × ℚ)) (store : Store), (store.map Prod.fst).Nodup →
      ∀ (idx : ℕ) (t' : Trade),
        Event.tpHit sym idx ∈ (tp_loop env sellOk sym cp fr ini cur levels store).2 →
        storeGet (tp_loop env sellOk sym cp fr ini cur levels store).1 sym = some t' →
        tpFilledAt t' idx = true := by
  intro levels
  induction levels with
  | nil => intro store _ idx t' hmem _; simp [tp_loop] at hmem
  | cons l rest ih =>
    obtain ⟨k, tp⟩ := l
    intro store hnd idx t' hmem hlook
    rw [tp_loop] at hmem hlook
    cases hg : storeGet store sym with
    | none => rw [hg] at hmem; simp at hmem
    | some trade =>
      rw [hg] at hmem hlook
      dsimp only at hmem hlook
      cases hf : trade.tp_filled with
      | none => rw [hf] at hmem; simp at hmem
      | some fl =>
        rw [hf] at hmem hlook
        dsimp only at hmem hlook
        split_ifs at hmem hlook with h1 h2 h3 h4 h5
        · exact ih store hnd idx t' hmem hlook
        · rcases List.mem_cons.mp hmem with h | hmem2
          · injection h with _ hidx
            subst hidx
            obtain ⟨t1, hget1, hmono⟩ := tp_loop_flags env sellOk sym cp fr ini cur rest
              (storeSet store sym (markTp trade idx)) (nodup_storeSet _ _ _ hnd) sym t' hlook
            rw [storeGet_storeSet_self] at hget1
            injection hget1 with hget1
            apply hmono
            rw [← hget1, markTp_eq trade fl idx hf,
              tpFilledAt_of_fl (show ({ trade with tp_filled := some (fl.set idx true) } : Trade).tp_filled = some (fl.set idx true) from rfl)]
            exact getD_set_self fl idx h1
          rcases List.mem_cons.mp hmem2 with h | hmem3
          · exact absurd h (by simp)
          · exact ih _ (nodup_storeSet _ _ _ hnd) idx t' hmem3 hlook
        · revert hmem hlook
          split
          next t'' hg2 =>
            intro hmem hlook
            rw [storeGet_storeSet_self] at hlook
            injection hlook with hlook
            rcases List.mem_cons.mp hmem with h | hmem2
            · injection h with _ hidx
              subst hidx
              obtain ⟨t0, hget0, hfl0, _⟩ :=
                execute_sell_tp_flags env sellOk sym _ store hnd sym t'' hg2
              rw [hg] at hget0
              injection hget0 with hget0
              rw [← hget0, hf] at hfl0
              rw [← hlook, markTp_eq t'' fl idx hfl0,
                tpFilledAt_of_fl (show ({ t'' with tp_filled := some (fl.set idx true) } : Trade).tp_filled = some (fl.set idx true) from rfl)]
              exact getD_set_self fl idx h1
            rcases List.mem_append.mp hmem2 with h | h
            · have := execute_sell_events_sell env sellOk sym _ store _ h
              simp [isSellEv] at this
            · simp only [List.mem_singleton] at h
              exact absurd h (by simp)
          next hg2 =>
            intro hmem hlook
            rw [hg2] at hlook
            exact absurd hlook (by simp)
        · simp at hmem
        · exact ih store hnd idx t' hmem hlook
        · simp at hmem

theorem tp_phase_tpHit_unfilled (env : Env) (sellOk : Bool) (sym : String) (cp : ℚ)
    (trade : Trade) (store : Store) (idx : ℕ) :
    Event.tpHit sym idx ∈ (tp_phase env sellOk sym cp trade store).2 →
    ∃ t, storeGet store sym = some t ∧ tpFilledAt t idx = false := by
  unfold tp_phase
  split
  · exact tp_loop_tpHit_unfilled env sellOk sym cp _ _ _ _ store idx
  · split_ifs
    · intro hmem
      simp at hmem
    · dsimp only
      split_ifs
      · intro hmem
        rcases List.mem_cons.mp hmem with h | h
        · exact absurd h (by simp)
        · have := execute_sell_events_sell env sellOk sym _ store _ h
          simp [isSellEv] at this
      · intro hmem
        simp at hmem

theorem tp_phase_tpHit_marked (env : Env) (sellOk : Bool) (sym : String) (cp : ℚ)
    (trade : Trade) (store : Store) (hnd : (store.map Prod.fst).Nodup)
    (idx : ℕ) (t' : Trade) :
    Event.tpHit sym idx ∈ (tp_phase env sellOk sym cp trade store).2 →
    storeGet (tp_phase env sellOk sym cp trade store).1 sym = some t' →
    tpFilledAt t' idx = true := by
  unfold tp_phase
  split
  · exact tp_loop_tpHit_marked env sellOk sym cp _ _ _ _ store hnd idx t'
  · split_ifs
    · intro hmem _
      simp at hmem
    · dsimp only
      split_ifs
      · intro hmem _
        rcases List.mem_cons.mp hmem with h | h
        · exact absurd h (by simp)
        · have := execute_sell_events_sell env sellOk sym _ store _ h
          simp [isSellEv] at this
      · intro hmem _
        simp at hmem

theorem handle_symbol_tpHit_unfilled (env : Env) (sellOk : Bool) (sym : String)
    (store : Store) (idx : ℕ) :
    Event.tpHit sym idx ∈ (handle_symbol env sellOk sym store).2 →
    ∃ t, storeGet store sym = some t ∧ tpFilledAt t idx = false := by
  unfold handle_symbol
  split
  · intro hmem
    simp at hmem
  · split
    · intro hmem
      simp at hmem
    · intro hmem
      simp at hmem
    · split
      · split_ifs
        · intro hmem
          rcases List.mem_cons.mp hmem with h | h
          · exact absurd h (by simp)
          · have := execute_sell_events_sell env sellOk sym _ store _ h
            simp [isSellEv] at this
        · exact tp_phase_tpHit_unfilled env sellOk sym _ _ store idx
      · split_ifs
        · intro hmem
          simp at hmem
        · try dsimp only
          split_ifs
          · intro hmem
            rcases List.mem_cons.mp hmem with h | h
            · exact absurd h (by simp)
            · have := execute_sell_events_sell env sellOk sym _ store _ h
              simp [isSellEv] at this
          · exact tp_phase_tpHit_unfilled env sellOk sym _ _ store idx

theorem handle_symbol_tpHit_marked (env : Env) (sellOk : Bool) (sym : String)
    (store : Store) (hnd : (store.map Prod.fst).Nodup) (idx : ℕ) (t' : Trade) :
    Event.tpHit sym idx ∈ (handle_symbol env sellOk sym store).2 →
    storeGet (handle_symbol env sellOk sym store).1 sym = some t' →
    tpFilledAt t' idx = true := by
  unfold handle_symbol
  split
  · intro hmem _
    simp at hmem
  · split
    · intro hmem _
      simp at hmem
    · intro hmem _
      simp at hmem
    · split
      · split_ifs
        · intro hmem _
          rcases List.mem_cons.mp hmem with h | h
          · exact absurd h (by simp)
          · have := execute_sell_events_sell env sellOk sym _ store _ h
            simp [isSellEv] at this
        · exact tp_phase_tpHit_marked env sellOk sym _ _ store hnd idx t'
      · split_ifs
        · intro hmem _
          simp at hmem
        · try dsimp only
          split_ifs
          · intro hmem _
            rcases List.mem_cons.mp hmem with h | h
            · exact absurd h (by simp)
            · have := execute_sell_events_sell env sellOk sym _ store _ h
              simp [isSellEv] at this
          · exact tp_phase_tpHit_marked env sellOk sym _ _ store hnd idx t'

/-- C6 (confirmed): a take-profit level's `filled` flag is one-way and
idempotently marked.  (a) Across a whole monitor sweep, a flag that is true
beforehand is still true for the (possibly updated) Position afterwards — a
sweep never resets a flag.  (b) A level can trigger (the "TPn hit" event)
only while its flag is false, so a filled level is never triggered again on
any later sweep.  (c) When a level triggers and the symbol is still tracked
after its handling, its flag is true — set regardless of whether the
corresponding close executed (zero-size levels are marked and skipped,
failed closes are marked too). -/
theorem c6_tp_filled_one_way (env : Env) (sellOkS : String → Bool) (sellOk : Bool)
    (sym : String) (store : Store) (hnd : (store.map Prod.fst).Nodup) :
    (∀ s t idx, storeGet store s = some t → tpFilledAt t idx = true →
        ∀ t', storeGet (check_positions env sellOkS store).store s = some t' →
          tpFilledAt t' idx = true)
    ∧ (∀ idx, Event.tpHit sym idx ∈ (handle_symbol env sellOk sym store).2 →
        ∃ t, storeGet store sym = some t ∧ tpFilledAt t idx = false)
    ∧ (∀ idx t', Event.tpHit sym idx ∈ (handle_symbol env sellOk sym store).2 →
        storeGet (handle_symbol env sellOk sym store).1 sym = some t' →
        tpFilledAt t' idx = true) := by
  refine ⟨?_, ?_, ?_⟩
  · intro s t idx hget hfill t' hlook
    obtain ⟨t0, hget0, hmono⟩ := sweep_go_flags env sellOkS store.length
      (store.map Prod.fst) store [] hnd s t' hlook
    rw [hget] at hget0
    injection hget0 with hget0
    apply hmono
    rw [← hget0]
    exact hfill
  · exact fun idx => handle_symbol_tpHit_unfilled env sellOk sym store idx
  · exact fun idx t' => handle_symbol_tpHit_marked env sellOk sym store hnd idx t'

unseal Rat.add Rat.sub Rat.mul Rat.inv Rat.ofScientific in
theorem c6_tp_filled_one_way_witness :
    tpFilledAt { ladderTrade with tp_filled := some [true, false, false] } 0 = true
    ∧ tpFilledAt { ladderTrade with tp_filled := some [true, false, false] } 0 = true := by
  refine ⟨by decide, ?_⟩
  exact (c6_tp_filled_one_way (simEnv 50000) (fun _ => true) true ("BTC")
    [(("BTC"), { ladderTrade with tp_filled := some [true, false, false] })] (by decide)).1
    ("BTC") { ladderTrade with tp_filled := some [true, false, false] } 0 (by decide) (by decide)
    { ladderTrade with tp_filled := some [true, false, false] } (by decide)

theorem enumFrom_fst_ge : ∀ (tps : List ℚ) (k : ℕ) (l : ℕ × ℚ),
    l ∈ List.enumFrom k tps → k ≤ l.1 := by
  intro tps
  induction tps with
  | nil => intro k l h; simp [List.enumFrom] at h
  | cons a as ih =>
    intro k l h
    rw [show List.enumFrom k (a :: as) = (k, a) :: List.enumFrom (k + 1) as from rfl] at h
    rcases List.mem_cons.mp h with h | h
    · rw [h]
    · exact Nat.le_of_succ_le (ih (k + 1) l h)

theorem firstClose_congr (cp : ℚ) (fr : List ℚ) (ini cur : ℤ) :
    ∀ (levels : List (ℕ × ℚ)) (fl fl' : List Bool),
      (∀ l ∈ levels, fl'.getD l.1 false = fl.getD l.1 false) →
      firstClose cp fr ini cur fl' levels = firstClose cp fr ini cur fl levels := by
  intro levels
  induction levels with
  | nil => intro fl fl' _; rfl
  | cons l rest ih =>
    obtain ⟨idx, tp⟩ := l
    intro fl fl' hagree
    have hrest : ∀ l ∈ rest, fl'.getD l.1 false = fl.getD l.1 false :=
      fun l hl => hagree l (List.mem_cons_of_mem _ hl)
    simp only [firstClose]
    rw [hagree (idx, tp) (List.mem_cons_self _ _)]
    split_ifs with h1 h2 h3
    · exact ih fl fl' hrest
    · exact ih fl fl' hrest
    · rfl
    · exact ih fl fl' hrest

theorem pyInt_pos_imp (q : ℚ) (h : 0 < pyInt q) : 1 ≤ q := by
  unfold pyInt at h
  split_ifs at h with hneg
  · exfalso
    have hc : ⌈q⌉ ≤ (0 : ℤ) := Int.ceil_le.mpr (by exact_mod_cast le_of_lt hneg)
    omega
  · have h1 : (1 : ℤ) ≤ ⌊q⌋ := h
    exact_mod_cast Int.le_floor.mp h1

theorem execute_sell_events_frac (env : Env) (sellOk : Bool) (sym : String)
    (p f : ℚ) (store : Store) (trade : Trade)
    (hl : storeGet store sym = some trade) (hm : env.market sym = some (some p))
    (hp0 : p ≠ 0) (hf1 : 0 < f) (hf2 : f ≤ 1) (hpos : 0 < trade.position_size) :
    (execute_sell env sellOk sym ⟨p, "MARKET", some f⟩ store).events =
      [Event.sellOrder sym (trade.position_size * f) p (env.simulation || sellOk)] := by
  have hres : resolve_exec_price env sym ⟨p, "MARKET", some f⟩ = some p := by
    unfold resolve_exec_price
    rw [hm]
    dsimp only
    rw [pyUpper_MARKET, if_pos rfl]
    simp only [Option.getD_some]
    rw [if_neg hp0]
  unfold execute_sell
  rw [hl]
  dsimp only
  rw [hres]
  dsimp only
  have hclamp : max 0 (min 1 ((some f).getD 1)) = f := by
    simp only [Option.getD_some]
    rw [min_eq_right hf2, max_eq_right (le_of_lt hf1)]
  rw [hclamp]
  have hszpos : 0 < trade.position_size * f := mul_pos hpos hf1
  rw [if_neg (not_le.mpr hszpos)]
  by_cases hsim : env.simulation = true
  · rw [if_neg (by simp [hsim])]
    by_cases he : trade.entry_price = 0
    · rw [if_pos he]
      simp [hsim]
    · rw [if_neg he]
      split_ifs <;> simp [hsim]
  · by_cases hok : sellOk = true
    · rw [if_neg (by simp [hok])]
      by_cases he : trade.entry_price = 0
      · rw [if_pos he]
        simp [hsim, hok]
      · rw [if_neg he]
        split_ifs <;> simp [hsim, hok]
    · rw [if_pos ⟨by simp [hsim], by simp [hok]⟩]
      simp only [Bool.not_eq_true] at hsim hok
      simp [hsim, hok]

theorem filter_sells_cons_tpHit (s : String) (i : ℕ) (evs : List Event) :
    (Event.tpHit s i :: evs).filter isSellEv = evs.filter isSellEv := by
  simp [List.filter_cons, isSellEv]

theorem filter_sells_cons_tpMarked (s : String) (i : ℕ) (evs : List Event) :
    (Event.tpMarked s i :: evs).filter isSellEv = evs.filter isSellEv := by
  simp [List.filter_cons, isSellEv]

theorem tp_loop_sells_spec (env : Env) (sellOk : Bool) (sym : String) (p : ℚ)
    (fr : List ℚ) (ini cur : ℤ) (pos0 : ℚ)
    (hcur : cur = pyInt pos0)
    (hm : env.market sym = some (some p)) (hp0 : p ≠ 0) :
    ∀ (tps : List ℚ) (k : ℕ) (store : Store) (trade : Trade) (fl : List Bool),
      storeGet store sym = some trade →
      trade.tp_filled = some fl →
      trade.position_size = pos0 →
      k + tps.length ≤ fl.length →
      k + tps.length ≤ fr.length →
      (tp_loop env sellOk sym p fr ini cur (List.enumFrom k tps) store).2.filter isSellEv =
        (match firstClose p fr ini cur fl (List.enumFrom k tps) with
         | none => []
         | some pr =>
            [Event.sellOrder sym (pos0 * ((pr.2 : ℚ) / (cur : ℚ))) p
              (env.simulation || sellOk)]) := by
  intro tps
  induction tps with
  | nil =>
    intro k store trade fl _ _ _ _ _
    simp [tp_loop, firstClose, List.enumFrom]
  | cons tp rest ih =>
    intro k store trade fl hget hfl hpos hb1 hb2
    have hk : k < fl.length := by simp at hb1; omega
    have hkf : k < fr.length := by simp at hb2; omega
    rw [show List.enumFrom k (tp :: rest) = (k, tp) :: List.enumFrom (k + 1) rest from rfl]
    rw [tp_loop]
    rw [hget]
    dsimp only
    rw [hfl]
    dsimp only
    rw [if_pos hk]
    simp only [firstClose]
    by_cases hfilled : fl.getD k false
    · rw [if_pos hfilled, if_pos hfilled]
      exact ih (k + 1) store trade fl hget hfl hpos
        (by simp at hb1 ⊢; omega) (by simp at hb2 ⊢; omega)
    · rw [if_neg hfilled, if_neg hfilled]
      by_cases hcross : tp ≤ p
      · rw [if_pos hcross, if_pos hcross, if_pos hkf]
        by_cases hzero : max 0 (min cur (pyInt ((ini : ℚ) * fr.getD k 0))) ≤ 0 ∨ cur ≤ 0
        · rw [if_pos hzero, if_pos hzero]
          have hget' : storeGet (storeSet store sym (markTp trade k)) sym =
              some (markTp trade k) := storeGet_storeSet_self _ _ _
          have hfl' : (markTp trade k).tp_filled = some (fl.set k true) :=
            markTp_eq trade fl k hfl ▸ rfl
          have hrec := ih (k + 1) (storeSet store sym (markTp trade k)) (markTp trade k)
            (fl.set k true) hget' hfl' hpos
            (by simp at hb1 ⊢; omega) (by simp at hb2 ⊢; omega)
          have hcongr := firstClose_congr p fr ini cur (List.enumFrom (k + 1) rest)
            fl (fl.set k true)
            (fun l hl => getD_set_ne fl true k l.1
              (by have := enumFrom_fst_ge rest (k + 1) l hl; omega) false)
          dsimp only
          rw [filter_sells_cons_tpHit, filter_sells_cons_tpMarked]
          rw [hrec, hcongr]
        · rw [if_neg hzero, if_neg hzero]
          have hzero' := not_or.mp hzero
          have hszpos : 0 < max 0 (min cur (pyInt ((ini : ℚ) * fr.getD k 0))) :=
            lt_of_not_le hzero'.1
          have hcurpos : (0 : ℤ) < cur := lt_of_not_le hzero'.2
          have hpos0 : (0 : ℚ) < pos0 := by
            have h1 : (1 : ℚ) ≤ pos0 := pyInt_pos_imp pos0 (by rw [← hcur]; exact hcurpos)
            linarith
          have hle : max 0 (min cur (pyInt ((ini : ℚ) * fr.getD k 0))) ≤ cur :=
            max_le (le_of_lt hcurpos) (min_le_left _ _)
          have hf1 : (0 : ℚ) <
              ((max 0 (min cur (pyInt ((ini : ℚ) * fr.getD k 0))) : ℤ) : ℚ) / ((cur : ℤ) : ℚ) :=
            div_pos (by exact_mod_cast hszpos) (by exact_mod_cast hcurpos)
          have hf2 : ((max 0 (min cur (pyInt ((ini : ℚ) * fr.getD k 0))) : ℤ) : ℚ) /
              ((cur : ℤ) : ℚ) ≤ 1 := by
            rw [div_le_one (by exact_mod_cast hcurpos)]
            exact_mod_cast hle
          have hev := execute_sell_events_frac env sellOk sym p
            (((max 0 (min cur (pyInt ((ini : ℚ) * fr.getD k 0))) : ℤ) : ℚ) / ((cur : ℤ) : ℚ))
            store trade hget hm hp0 hf1 hf2 (by rw [hpos]; exact hpos0)
          dsimp only
          split
          next t' hg2 =>
            dsimp only
            rw [List.filter_append, filter_sells_cons_tpHit, hev, hpos]
            simp [List.filter_cons, isSellEv]
          next hg2 =>
            dsimp only
            rw [filter_sells_cons_tpHit, hev, hpos]
            simp [List.filter_cons, isSellEv]
      · rw [if_neg hcross, if_neg hcross]
        exact ih (k + 1) store trade fl hget hfl hpos
          (by simp at hb1 ⊢; omega) (by simp at hb2 ⊢; omega)

theorem truthyList_eq_some {α : Type} {o : Option (List α)} {l : List α}
    (h : truthyList o = some l) : o = some l := by
  cases o with
  | none => simp [truthyList] at h
  | some xs =>
    cases xs with
    | nil => simp [truthyList] at h
    | cons x xs => simpa [truthyList] using h

unseal Rat.add Rat.sub Rat.mul Rat.inv Rat.ofScientific in
/-- C2 counterexample: price 52500 crosses only the first level of
`ladderTrade` (initial size 10, equal fractions 1/3).  The sweep closes the
integer-truncated size `int(int(10) * (1/3)) = 3`, not the claim's exact
`min currentSize (initialSize * (1/3)) = 10/3`. -/
theorem c2_counterexample :
    (tp_phase (simEnv 52500) true ("BTC") 52500 ladderTrade
        [(("BTC"), ladderTrade)]).2 =
      [Event.tpHit ("BTC") 0, Event.sellOrder ("BTC") 3 52500 true,
        Event.tpMarked ("BTC") 0]
    ∧ ¬((3 : ℚ) = min 10 (10 * (1 / 3))) :=
  ⟨by decide, by decide⟩

/-- C2 (amended): in a monitor sweep, a position whose take-profit ladder is
evaluated (non-empty levels and flags, market price available, nonzero price)
issues at most one take-profit close, and the close that is issued is exactly
described by `firstClose`: scanning levels in order, skipping filled levels,
skipping crossed levels whose integer-truncated target size
`int(int(initialSize) * fraction)` clamped to `[0, int(currentSize)]` is zero
(they are only marked), and selling at the first crossed level with a positive
truncated size — the executed size being
`currentSize * truncatedSize / int(currentSize)`, not the exact
`min currentSize (initialSize * fraction)` of the claim. -/
theorem c2_first_triggered_level (env : Env) (sellOk : Bool) (sym : String)
    (p : ℚ) (trade : Trade) (store : Store) (tps : List ℚ) (fl : List Bool)
    (htp : truthyList trade.take_profits = some tps)
    (hfl : truthyList trade.tp_filled = some fl)
    (hget : storeGet store sym = some trade)
    (hm : env.market sym = some (some p))
    (hp0 : p ≠ 0)
    (hlen : tps.length ≤ fl.length) :
    (tp_phase env sellOk sym p trade store).2.filter isSellEv =
      (match firstClose p (parse_tp_fractions env.tp_fractions tps.length)
          (pyInt (trade.initial_position_size.getD trade.position_size))
          (pyInt trade.position_size) fl tps.enum with
       | none => []
       | some pr =>
          [Event.sellOrder sym
            (trade.position_size * ((pr.2 : ℚ) / ((pyInt trade.position_size : ℤ) : ℚ)))
            p (env.simulation || sellOk)])
    ∧ ((tp_phase env sellOk sym p trade store).2.filter isSellEv).length ≤ 1 := by
  have hfl0 : trade.tp_filled = some fl := truthyList_eq_some hfl
  have heq : tp_phase env sellOk sym p trade store =
      tp_loop env sellOk sym p (parse_tp_fractions env.tp_fractions tps.length)
        (pyInt (trade.initial_position_size.getD trade.position_size))
        (pyInt trade.position_size) (List.enumFrom 0 tps) store := by
    unfold tp_phase
    rw [htp, hfl]
    rfl
  have hmain := tp_loop_sells_spec env sellOk sym p
    (parse_tp_fractions env.tp_fractions tps.length)
    (pyInt (trade.initial_position_size.getD trade.position_size))
    (pyInt trade.position_size) trade.position_size rfl hm hp0 tps 0 store trade fl
    hget hfl0 rfl (by omega) (by rw [parse_tp_fractions_length]; omega)
  have henum : tps.enum = List.enumFrom 0 tps := rfl
  constructor
  · rw [heq, henum]
    exact hmain
  · rw [heq, hmain]
    split <;> simp

unseal Rat.add Rat.sub Rat.mul Rat.inv Rat.ofScientific in
theorem c2_first_triggered_level_witness :
    (tp_phase (simEnv 52500) true ("BTC") 52500 ladderTrade
        [(("BTC"), ladderTrade)]).2.filter isSellEv =
      [Event.sellOrder ("BTC") (10 * ((3 : ℚ) / 10)) 52500 true]
    ∧ ((tp_phase (simEnv 52500) true ("BTC") 52500 ladderTrade
        [(("BTC"), ladderTrade)]).2.filter isSellEv).length ≤ 1 := by
  have h := c2_first_triggered_level (simEnv 52500) true ("BTC") 52500 ladderTrade
    [(("BTC"), ladderTrade)] [52000, 54000, 56000] [false, false, false]
    (by decide) (by decide) (by decide) (by decide) (by decide) (by decide)
  refine ⟨?_, h.2⟩
  rw [h.1]
  decide
